import Mathlib

/-!
Verification of the covert timestamp channel (`src/timestamp_channel.py`).

The program hides a payload file in the sub-second timestamp fields of the
regular files of a directory and recovers it later.  This file gives a
shallow embedding of the encode/decode core:

* byte sequences and decimal digit strings are `List Nat` (each byte < 256,
  each digit < 10), in the same order as the Python `bytes` / `str` values;
* the Python helpers (`prepend_zeroes`, `int_to_bytes`, `int_from_bytes`,
  `int_byte_size`, `chunk_list`) are translated one to one;
* the Reed-Solomon codec comes from the external `reedsolo` package (it is
  not part of this repository), so it is modelled from the spec, see
  `rsParity` / `rsEncode` / `rsDecode`;
* a carrier file is its three mutable timestamp fields (`FileTimes`); the
  reset/write/read timestamp arithmetic of `hide` / `get_encoded_int_string`
  is translated directly;
* raised Python exceptions become `Except ChError`.

Numbers are `Nat` (Python's unbounded non-negative ints here); the one
value that Python keeps as a possibly negative int (`remaining_chunks`) is
an `Int` in `planLoop`.
-/

namespace TimestampChannel

/-! ### Digit and byte conversions (lines 109-131 of the source) -/

/-- Auxiliary fuel-driven form of Python's `int.bit_length()`; the fuel is
the number itself, which bounds the number of halvings. -/
def bitLenAux : Nat → Nat → Nat
  | 0, _ => 0
  | fuel + 1, n => if n = 0 then 0 else bitLenAux fuel (n / 2) + 1

/-- Python `n.bit_length()` for a natural number `n`. -/
def bit_length (n : Nat) : Nat := bitLenAux n n

/-- Auxiliary fuel-driven big-endian base-`b` rendering; the fuel is the
number itself, which bounds the number of divisions by `b ≥ 2`. -/
def toBaseAux (b : Nat) : Nat → Nat → List Nat
  | 0, _ => []
  | fuel + 1, n => if n = 0 then [] else toBaseAux b fuel (n / b) ++ [n % b]

/-- Minimal big-endian base-`b` digit list of `n` (empty for `n = 0`). -/
def toBaseBE (b n : Nat) : List Nat := toBaseAux b n n

/-- Reads a big-endian base-`b` digit list back as a number. -/
def fromBase (b : Nat) (ds : List Nat) : Nat := ds.foldl (fun a d => a * b + d) 0

/-- Line 115: `x.to_bytes((x.bit_length() + 7) // 8, 'big')` — minimal
big-endian bytes, `b''` for `x = 0`. -/
def int_to_bytes (x : Nat) : List Nat := toBaseBE 256 x

/-- Line 119: `int.from_bytes(xbytes, 'big')`. -/
def int_from_bytes (xbytes : List Nat) : Nat := fromBase 256 xbytes

/-- Python `str(n)` as a digit list: `"0"` for `0`, else the minimal
decimal rendering. -/
def natDigits (n : Nat) : List Nat := if n = 0 then [0] else toBaseBE 10 n

/-- Line 123: `int(int('9'*digits).bit_length() / 8)`.  `int('9'*d)` is
`10^d - 1`, and `int(x / 8)` truncates the float quotient, which for these
small non-negative values is floor division. -/
def int_byte_size (digits : Nat) : Nat := bit_length (10 ^ digits - 1) / 8

/-- Line 109: left-pad a digit/byte string with zeroes up to width `n`
(the `while len < n` loop never truncates a longer string). -/
def prepend_zeroes (s : List Nat) (n : Nat) : List Nat :=
  List.replicate (n - s.length) 0 ++ s

/-! ### Format constants (lines 127-131) -/

def DIGITS_FOR_INDEX : Nat := 4

def STORABLE_DIGITS_PER_FILE : Nat := 17 - DIGITS_FOR_INDEX

def STORABLE_BYTES_PER_FILE : Nat := int_byte_size (STORABLE_DIGITS_PER_FILE - 1)

def ERROR_CORRECTING_BYTES : Nat := 50

/-- `int('9' * DIGITS_FOR_INDEX) = 9999`, the all-nines index value. -/
def NINES_INDEX : Nat := 10 ^ DIGITS_FOR_INDEX - 1

/-! ### Errors

Each constructor is one failure site of the Python program:
`capacityExceeded` is the `Exception('Can only store up to ...')` at line
165, `chunkTooLarge` the `Exception('Data too long: ...')` at line 172,
`insufficientCarriers` the `Exception('Not enough files ...')` at line 193,
`reedSolomonError` the `reedsolo.ReedSolomonError` escaping `RSCodec.decode`
at line 306, and `indexError` a bare Python `IndexError`: either from
`bytes(encoded_data)[0]` at line 302 when the buffer is empty, or from
`message_and_data[1]` at line 312 when the decoded message has no `'.'`. -/
inductive ChError where
  | capacityExceeded
  | chunkTooLarge
  | insufficientCarriers
  | reedSolomonError
  | indexError
  deriving DecidableEq, Repr

/-! ### Reed-Solomon frame codec

The program delegates to the external `reedsolo` package
(`RSCodec(ERROR_CORRECTING_BYTES)`), which is not part of this repository.

Modelled from the spec: `encode` "appends `P` parity bytes (`P` = 50)
computed over the whole message" using "a systematic Reed-Solomon-style
code over GF(256)", and `decode` "runs error-correction decode/repair
first (fails with `UncorrectableError` ...)" and returns the message part.
The concrete parity polynomial is internal to `reedsolo` and not specified,
so the parity block is abstracted as a message-dependent placeholder; the
decoder accepts exactly the uncorrupted codewords of this encoder (the
claims settled here only exercise the zero-corruption behaviour). -/
def rsParity (m : List Nat) : List Nat :=
  List.replicate ERROR_CORRECTING_BYTES (m.length % 256)

/-- Modelled from the spec: systematic encode, message followed by the
50-byte parity block. -/
def rsEncode (m : List Nat) : List Nat := m ++ rsParity m

/-- Modelled from the spec: decode takes everything but the last 50 bytes
as the message and fails on a corrupted codeword. -/
def rsDecode (c : List Nat) : Except ChError (List Nat) :=
  let msg := c.take (c.length - ERROR_CORRECTING_BYTES)
  if c = rsEncode msg then .ok msg else .error .reedSolomonError

/-! ### Chunking (lines 78-81, 151-152, 161) -/

/-- Fuel-driven body of `chunk_list`; the fuel is the list length, which
bounds the number of slices for `n ≥ 1`. -/
def chunkAux (n : Nat) : Nat → List Nat → List (List Nat)
  | _, [] => []
  | 0, _ :: _ => []
  | fuel + 1, l@(_ :: _) => l.take n :: chunkAux n fuel (l.drop n)

/-- Lines 78-81: successive `n`-sized slices `l[i:i+n]` of `l`. -/
def chunk_list (l : List Nat) (n : Nat) : List (List Nat) := chunkAux n l.length l

/-- Lines 151-152: prepend zero bytes until the length is a multiple of
`STORABLE_BYTES_PER_FILE` (= 5). -/
def padToMultiple (l : List Nat) : List Nat :=
  List.replicate
    ((STORABLE_BYTES_PER_FILE - l.length % STORABLE_BYTES_PER_FILE) %
      STORABLE_BYTES_PER_FILE) 0 ++ l

/-! ### Digit-string planning (lines 154-185, 247-253) -/

/-- Lines 247-253: 4-digit zero-padded index field followed by the 13-digit
zero-padded data field. -/
def prepend_chunk (index_val data_val : List Nat) : List Nat :=
  prepend_zeroes index_val DIGITS_FOR_INDEX ++
    prepend_zeroes data_val STORABLE_DIGITS_PER_FILE

/-- Lines 169-185, the planning loop.  State: `index` is the running index
field value, `remaining` the Python `remaining_chunks` (an `Int`: the code
subtracts 9998 from it at each index record and may drive it negative; it
is only rendered while still non-negative, hence the `Int.toNat` at the
single rendering site).  Each data chunk `c` is rendered as
`str(int_from_bytes(c))` and rejected if longer than 13 digits; before
chunk 0 and whenever `index` reaches `int('9'*4) - 1 = 9998` an index
record `0000 ++ str(remaining_chunks)` is emitted and the window restarts
at index 1. -/
def planLoop (index : Nat) (remaining : Int) :
    List (List Nat) → Except ChError (List (List Nat))
  | [] => .ok []
  | c :: cs =>
    let s := natDigits (int_from_bytes c)
    if STORABLE_DIGITS_PER_FILE < s.length then .error .chunkTooLarge
    else if index = 0 ∨ index = NINES_INDEX - 1 then
      match planLoop 2 (remaining - (NINES_INDEX - 1 : Nat)) cs with
      | .error e => .error e
      | .ok rest =>
          .ok (prepend_chunk (natDigits 0) (natDigits remaining.toNat) ::
            prepend_chunk (natDigits 1) s :: rest)
    else
      match planLoop (index + 1) remaining cs with
      | .error e => .error e
      | .ok rest => .ok (prepend_chunk (natDigits index) s :: rest)

/-- Lines 163-185: the global capacity check
(`remaining_chunks > int('9'*4) - 1`) followed by the planning loop started
with `index = 0` and `remaining_chunks = len(data_chunks)`. -/
def planChunks (data_chunks : List (List Nat)) : Except ChError (List (List Nat)) :=
  if (NINES_INDEX - 1 : Nat) < data_chunks.length then .error .capacityExceeded
  else planLoop 0 (data_chunks.length : Int) data_chunks

/-! ### Carrier files and timestamp mapping (lines 84-106, 197-243, 324-345)

A carrier is reduced to the three fields the channel reads and writes: the
microsecond component of the creation time and the two nanosecond stat
values.  The whole-second parts of the creation time are never read back
(`get_encoded_int_string` uses only `ctimestamp.microsecond`), and the file
listing order (`get_file_list` sorts by creation time and path) does not
matter because `extract` re-sorts the digit strings themselves. -/
structure FileTimes where
  ctime_microsecond : Nat
  atime_ns : Nat
  mtime_ns : Nat
  deriving Repr, DecidableEq

/-- Line 105: `math.floor(value / 1000000000) * 1000000000`. -/
def floor_billionths (value : Nat) : Nat := value / 1000000000 * 1000000000

/-- Lines 197-212: the baseline pass sets the creation microseconds to
999999 and both nanosecond fields to `floor_billionths(t) + 9999999 * 100`. -/
def resetFile (f : FileTimes) : FileTimes :=
  { ctime_microsecond := 999999
    atime_ns := floor_billionths f.atime_ns + 9999999 * 100
    mtime_ns := floor_billionths f.mtime_ns + 9999999 * 100 }

/-- Lines 221-241: write one 17-digit string `c` to a carrier:
`int(c[0:3]) * 1000` microseconds to the creation time, and
`floor_billionths(t) + int(c[3:10]) * 100` / `... int(c[10:17]) * 100`
to the access and modification nanosecond fields. -/
def writeFile (f : FileTimes) (c : List Nat) : FileTimes :=
  { ctime_microsecond := fromBase 10 (c.take 3) * 1000
    atime_ns := floor_billionths f.atime_ns + fromBase 10 ((c.drop 3).take 7) * 100
    mtime_ns := floor_billionths f.mtime_ns + fromBase 10 (c.drop 10) * 100 }

/-- Lines 324-345 (`get_encoded_int_string`, one file): 3 digits from
`int(microsecond / 1000)`, then 7 digits each from
`int((t_ns % 1000000000) / 100)` for access and modification times; the
float divisions truncate and are exact floor divisions at these
magnitudes. -/
def readFile (f : FileTimes) : List Nat :=
  prepend_zeroes (natDigits (f.ctime_microsecond / 1000)) 3 ++
    prepend_zeroes (natDigits (f.atime_ns % 1000000000 / 100)) 7 ++
    prepend_zeroes (natDigits (f.mtime_ns % 1000000000 / 100)) 7

/-- The digit string read back from a carrier that was reset and never
written: `999` ++ `9999999` ++ `9999999`. -/
def sentinel : List Nat := List.replicate 17 9

/-- Lines 214-243: after the baseline pass the digit strings are written to
the contiguous window of carriers starting at the random `offset`
(`del files[:offset]` then one `files.pop(0)` per string); every other
carrier keeps its reset state. -/
def writeAt (files : List FileTimes) (offset : Nat) (strs : List (List Nat)) :
    List FileTimes :=
  files.take offset ++ List.zipWith writeFile (files.drop offset) strs ++
    files.drop (offset + strs.length)

/-- Line 144-145: `input_path.split('.')[-1]` — the suffix after the last
`'.'` (byte 46), or the whole string when it has no `'.'`. -/
def afterLastDot : List Nat → List Nat
  | [] => []
  | d :: rest =>
      if 46 ∈ rest then afterLastDot rest
      else if d = 46 then rest else d :: rest

/-- Lines 136-245, `CovertChannel.hide`, as a function from the payload
bytes, the (already split-off) extension bytes, the carrier pool in listing
order, and the chosen random offset, to the final carrier pool.  It frames
(`payload ++ b'.' ++ extension`, Reed-Solomon encode), pads, chunks, plans
the digit strings, checks the pool size, resets every carrier, and writes
the strings to the window at `offset`. -/
def hideFiles (payload ext : List Nat) (pool : List FileTimes) (offset : Nat) :
    Except ChError (List FileTimes) :=
  match planChunks
      (chunk_list (padToMultiple (rsEncode (payload ++ 46 :: ext)))
        STORABLE_BYTES_PER_FILE) with
  | .error e => .error e
  | .ok strs =>
      if pool.length < strs.length then .error .insufficientCarriers
      else .ok (writeAt (pool.map resetFile) offset strs)

/-- `hide` with the extension derived from the input path as at lines
143-145. -/
def hide (input_path payload : List Nat) (pool : List FileTimes) (offset : Nat) :
    Except ChError (List FileTimes) :=
  hideFiles payload (afterLastDot input_path) pool offset

/-! ### Extraction (lines 255-315) -/

/-- Python string comparison `a < b` on digit strings (code-point
lexicographic; digits map to code points order-preservingly). -/
def lexLT : List Nat → List Nat → Bool
  | [], [] => false
  | [], _ :: _ => true
  | _ :: _, [] => false
  | a :: as, b :: bs => if a < b then true else if b < a then false else lexLT as bs

/-- Python string comparison `a <= b` on digit strings. -/
def lexLE : List Nat → List Nat → Bool
  | [], _ => true
  | _ :: _, [] => false
  | a :: as, b :: bs => if a < b then true else if b < a then false else lexLE as bs

/-- The `≤` comparison as a relation, for sorting. -/
def digLE (a b : List Nat) : Prop := lexLE a b = true

/-- The `<` comparison as a relation. -/
def digLT (a b : List Nat) : Prop := lexLT a b = true

instance : DecidableRel digLE := fun _ _ => inferInstanceAs (Decidable (_ = true))

instance : DecidableRel digLT := fun _ _ => inferInstanceAs (Decidable (_ = true))

instance {e a : Type} [DecidableEq e] [DecidableEq a] : DecidableEq (Except e a)
  | .ok x, .ok y =>
      if h : x = y then .isTrue (by rw [h]) else .isFalse (by simp [h])
  | .ok _, .error _ => .isFalse (by simp)
  | .error _, .ok _ => .isFalse (by simp)
  | .error x, .error y =>
      if h : x = y then .isTrue (by rw [h]) else .isFalse (by simp [h])

/-- Line 271: `sorted(encoded_int_strings)` — Python's stable sort under
string `<`; modelled with insertion sort under the same order (the sorted
result is unique up to ties, and tied digit strings are equal lists). -/
def sortStrings (l : List (List Nat)) : List (List Nat) := l.insertionSort digLE

/-- Lines 265-297, the scanning loop over the sorted digit strings.
A string with index field 0 (re)starts a window: `found_start := True` and
`files_remaining := int(string[4:])`.  A string with nonzero index field is
skipped before the first index record, consumed as
`int_to_bytes(int(string[4:]))` zero-padded to 5 bytes while
`files_remaining > 0`, and otherwise hits the `break`.  The
`files_captured` / `next_index` counters only feed a print and are
dropped. -/
def extractScan (found : Bool) (remaining : Nat) :
    List (List Nat) → List Nat
  | [] => []
  | s :: rest =>
    if fromBase 10 (s.take DIGITS_FOR_INDEX) ≠ 0 then
      if !found then extractScan found remaining rest
      else if 0 < remaining then
        prepend_zeroes (int_to_bytes (fromBase 10 (s.drop DIGITS_FOR_INDEX)))
            STORABLE_BYTES_PER_FILE ++
          extractScan found (remaining - 1) rest
      else []
    else extractScan true (fromBase 10 (s.drop DIGITS_FOR_INDEX)) rest

/-- Lines 301-303: `while bytes(encoded_data)[0] == 0: encoded_data =
encoded_data[1:]` — strips leading zero bytes and raises `IndexError` when
the buffer runs out (in particular on an empty buffer). -/
def trimLeadingZeros : List Nat → Except ChError (List Nat)
  | [] => .error .indexError
  | 0 :: rest => trimLeadingZeros rest
  | d :: rest => .ok (d :: rest)

/-- Lines 310-312: `decoded_message.rsplit(b'.', 1)` then taking elements
`[0]` and `[1]` — split at the last byte 46; `IndexError` when there is
none (the one-element `rsplit` result has no index 1). -/
def rsplitDot : List Nat → Except ChError (List Nat × List Nat)
  | [] => .error .indexError
  | d :: rest =>
    match rsplitDot rest with
    | .ok (p, e) => .ok (d :: p, e)
    | .error _ => if d = 46 then .ok ([], rest) else .error .indexError

/-- Lines 255-315, `CovertChannel.extract` on the digit strings read from
the carriers: sort, scan, strip leading zero bytes, Reed-Solomon decode,
split payload from extension at the last `'.'`.  Returns the payload bytes
and the extension bytes (the caller writes the payload to
`output_path + '.' + ext`). -/
def extractCore (strings : List (List Nat)) : Except ChError (List Nat × List Nat) :=
  match trimLeadingZeros (extractScan false 0 (sortStrings strings)) with
  | .error e => .error e
  | .ok trimmed =>
    match rsDecode trimmed with
    | .error e => .error e
    | .ok msg => rsplitDot msg

/-- `extract` from a carrier pool: read every carrier's digit string
(lines 325-345), then run the core. -/
def extractFiles (pool : List FileTimes) : Except ChError (List Nat × List Nat) :=
  extractCore (pool.map readFile)

/-! ### Derived notions used by the claims -/

/-- The spec's Digit Codec `bytes_to_decimal`: big-endian integer value of
the bytes, rendered in decimal and zero-padded to `width` (lines 170 and
252 composed). -/
def bytes_to_decimal (b : List Nat) (width : Nat) : List Nat :=
  prepend_zeroes (natDigits (int_from_bytes b)) width

/-- The spec's Digit Codec `decimal_to_bytes`: parse the digit string,
render as minimal big-endian bytes, zero-pad to `byte_width` (lines
282-289 composed). -/
def decimal_to_bytes (s : List Nat) (byte_width : Nat) : List Nat :=
  prepend_zeroes (int_to_bytes (fromBase 10 s)) byte_width

/-- Number of data chunks `hide` derives from a payload and extension. -/
def numChunks (payload ext : List Nat) : Nat :=
  (chunk_list (padToMultiple (rsEncode (payload ++ 46 :: ext)))
    STORABLE_BYTES_PER_FILE).length

/-- Carrier count actually consumed by a plan of `n` data chunks within the
global capacity: the data chunks plus one index record per window of
`NINES_INDEX - 2 = 9997` data chunks. -/
def plannedFiles (n : Nat) : Nat := n + (n + (NINES_INDEX - 2) - 1) / (NINES_INDEX - 2)

/-- The data-record digit strings the planning loop emits for chunks
`cs` starting at index field value `i`, while no index record intervenes. -/
def dataStrings (i : Nat) : List (List Nat) → List (List Nat)
  | [] => []
  | c :: cs =>
      prepend_chunk (natDigits i) (natDigits (int_from_bytes c)) ::
        dataStrings (i + 1) cs

/-- The index-record digit string announcing `n` remaining data chunks. -/
def idxRecord (n : Nat) : List Nat := prepend_chunk (natDigits 0) (natDigits n)

/-- Well-formed chunk: exactly the per-file byte capacity, all bytes. -/
def ChunkOK (c : List Nat) : Prop :=
  c.length = STORABLE_BYTES_PER_FILE ∧ ∀ d ∈ c, d < 256

/-- Well-formed digit string: 17 decimal digits. -/
def StrOK (s : List Nat) : Prop := s.length = 17 ∧ ∀ d ∈ s, d < 10

/-- Did the run succeed (no Python exception)? -/
def exceptOk {α : Type} : Except ChError α → Bool
  | .ok _ => true
  | .error _ => false

/-- The digit strings the planning step derives from a framed byte stream
(empty on a planning failure); the planning step of `hide` is lines
151-185: pad, chunk, plan. -/
def planOrNil (stream : List Nat) : List (List Nat) :=
  match planChunks (chunk_list (padToMultiple stream) STORABLE_BYTES_PER_FILE) with
  | .ok strs => strs
  | .error _ => []

/-- One full `hide` run followed by one full `extract` run on the same
carrier pool, with the timestamps preserved in between. -/
def hideThenExtract (payload ext : List Nat) (pool : List FileTimes)
    (offset : Nat) : Except ChError (List Nat × List Nat) :=
  match hideFiles payload ext pool offset with
  | .error e => .error e
  | .ok pool' => extractFiles pool'

/-! ## Lemmas about the base conversions -/

theorem fromBase_nil (b : Nat) : fromBase b [] = 0 := rfl

theorem foldl_base (b : Nat) (l : List Nat) (a : Nat) :
    l.foldl (fun a d => a * b + d) a = a * b ^ l.length + fromBase b l := by
  induction l generalizing a with
  | nil => simp [fromBase]
  | cons d l ih =>
    have hd : fromBase b (d :: l) = d * b ^ l.length + fromBase b l := by
      show l.foldl (fun a d => a * b + d) (0 * b + d) = _
      rw [ih]; ring_nf
    simp only [List.foldl_cons, List.length_cons, hd]
    rw [ih]; ring

theorem fromBase_cons (b d : Nat) (l : List Nat) :
    fromBase b (d :: l) = d * b ^ l.length + fromBase b l := by
  show l.foldl (fun a d => a * b + d) (0 * b + d) = _
  rw [foldl_base]; ring_nf

theorem fromBase_append (b : Nat) (xs ys : List Nat) :
    fromBase b (xs ++ ys) = fromBase b xs * b ^ ys.length + fromBase b ys := by
  unfold fromBase
  rw [List.foldl_append, foldl_base]
  rfl

theorem fromBase_replicate_zero (b k : Nat) : fromBase b (List.replicate k 0) = 0 := by
  induction k with
  | zero => rfl
  | succ k ih => rw [List.replicate_succ, fromBase_cons, ih]; ring

theorem fromBase_lt {b : Nat} (hb : 0 < b) :
    ∀ ds : List Nat, (∀ d ∈ ds, d < b) → fromBase b ds < b ^ ds.length
  | [], _ => by simpa [fromBase] using Nat.pos_pow_of_pos 0 hb
  | d :: ds, h => by
    have hd : d < b := h d (List.mem_cons_self _ _)
    have ht : fromBase b ds < b ^ ds.length :=
      fromBase_lt hb ds fun x hx => h x (List.mem_cons_of_mem _ hx)
    rw [fromBase_cons]
    calc d * b ^ ds.length + fromBase b ds
        < d * b ^ ds.length + b ^ ds.length := Nat.add_lt_add_left ht _
      _ = (d + 1) * b ^ ds.length := by ring
      _ ≤ b * b ^ ds.length := Nat.mul_le_mul_right _ hd
      _ = b ^ (d :: ds).length := by rw [List.length_cons, pow_succ]; ring

theorem fromBase_inj {b : Nat} :
    ∀ ds es : List Nat, ds.length = es.length → (∀ d ∈ ds, d < b) →
      (∀ e ∈ es, e < b) → fromBase b ds = fromBase b es → ds = es
  | [], [], _, _, _, _ => rfl
  | [], _ :: _, hlen, _, _, _ => by simp at hlen
  | _ :: _, [], hlen, _, _, _ => by simp at hlen
  | d :: ds, e :: es, hlen, hd, he, hv => by
    have hb : 0 < b := Nat.lt_of_le_of_lt (Nat.zero_le d) (hd d (List.mem_cons_self _ _))
    have hlen' : ds.length = es.length := by simpa using hlen
    have h1 : fromBase b ds < b ^ ds.length :=
      fromBase_lt hb ds fun x hx => hd x (List.mem_cons_of_mem _ hx)
    have h2 : fromBase b es < b ^ ds.length := by
      rw [hlen']
      exact fromBase_lt hb es fun x hx => he x (List.mem_cons_of_mem _ hx)
    rw [fromBase_cons, fromBase_cons, ← hlen'] at hv
    have hde : d = e := by
      rcases Nat.lt_trichotomy d e with h | h | h
      · exfalso
        have : d * b ^ ds.length + fromBase b ds < e * b ^ ds.length + fromBase b es :=
          calc d * b ^ ds.length + fromBase b ds
              < d * b ^ ds.length + b ^ ds.length := Nat.add_lt_add_left h1 _
            _ = (d + 1) * b ^ ds.length := by ring
            _ ≤ e * b ^ ds.length := Nat.mul_le_mul_right _ h
            _ ≤ e * b ^ ds.length + fromBase b es := Nat.le_add_right _ _
        omega
      · exact h
      · exfalso
        have : e * b ^ ds.length + fromBase b es < d * b ^ ds.length + fromBase b ds :=
          calc e * b ^ ds.length + fromBase b es
              < e * b ^ ds.length + b ^ ds.length := Nat.add_lt_add_left h2 _
            _ = (e + 1) * b ^ ds.length := by ring
            _ ≤ d * b ^ ds.length := Nat.mul_le_mul_right _ h
            _ ≤ d * b ^ ds.length + fromBase b ds := Nat.le_add_right _ _
        omega
    subst hde
    have : fromBase b ds = fromBase b es := by omega
    rw [fromBase_inj ds es hlen'
      (fun x hx => hd x (List.mem_cons_of_mem _ hx))
      (fun x hx => he x (List.mem_cons_of_mem _ hx)) this]

theorem toBaseAux_zero (b : Nat) : ∀ fuel, toBaseAux b fuel 0 = []
  | 0 => rfl
  | _ + 1 => by simp [toBaseAux]

theorem toBaseAux_fuel {b : Nat} (hb : 2 ≤ b) :
    ∀ f1 f2 n, n ≤ f1 → n ≤ f2 → toBaseAux b f1 n = toBaseAux b f2 n := by
  intro f1
  induction f1 with
  | zero =>
    intro f2 n h1 _
    have : n = 0 := Nat.le_zero.mp h1
    subst this
    rw [toBaseAux_zero, toBaseAux_zero]
  | succ f1 ih =>
    intro f2 n h1 h2
    by_cases hn : n = 0
    · subst hn; rw [toBaseAux_zero, toBaseAux_zero]
    · match f2 with
      | 0 => exact absurd (Nat.le_zero.mp h2) hn
      | f2 + 1 =>
        have hlt : n / b < n := Nat.div_lt_self (Nat.pos_of_ne_zero hn) hb
        simp only [toBaseAux, if_neg hn]
        rw [ih f2 (n / b) (by omega) (by omega)]

theorem toBaseBE_zero (b : Nat) : toBaseBE b 0 = [] := rfl

theorem toBaseBE_eq {b : Nat} (hb : 2 ≤ b) (n : Nat) :
    toBaseBE b n = if n = 0 then [] else toBaseBE b (n / b) ++ [n % b] := by
  by_cases hn : n = 0
  · subst hn; simp [toBaseBE_zero]
  · obtain ⟨m, rfl⟩ : ∃ m, n = m + 1 := ⟨n - 1, by omega⟩
    rw [if_neg hn]
    show toBaseAux b (m + 1) (m + 1) = _
    simp only [toBaseAux, if_neg hn]
    rw [toBaseAux_fuel hb m ((m + 1) / b) ((m + 1) / b)
      (by have h := Nat.div_lt_self (show 0 < m + 1 by omega) hb; omega) le_rfl]
    rfl

theorem fromBase_toBaseBE {b : Nat} (hb : 2 ≤ b) (n : Nat) :
    fromBase b (toBaseBE b n) = n := by
  induction n using Nat.strong_induction_on with
  | _ n ih =>
    rw [toBaseBE_eq hb]
    by_cases hn : n = 0
    · simp [hn, fromBase_nil]
    · rw [if_neg hn, fromBase_append]
      have hlt : n / b < n := Nat.div_lt_self (Nat.pos_of_ne_zero hn) hb
      rw [ih _ hlt]
      have h1 : fromBase b [n % b] = n % b := by simp [fromBase_cons, fromBase_nil]
      rw [h1]
      simp only [List.length_cons, List.length_nil, zero_add, pow_one]
      exact Nat.div_add_mod' n b

theorem toBaseBE_length_le {b : Nat} (hb : 2 ≤ b) :
    ∀ n k, n < b ^ k → (toBaseBE b n).length ≤ k := by
  intro n
  induction n using Nat.strong_induction_on with
  | _ n ih =>
    intro k hk
    rw [toBaseBE_eq hb]
    by_cases hn : n = 0
    · simp [hn]
    · rw [if_neg hn]
      match k with
      | 0 =>
        exfalso
        have : n < 1 := by simpa using hk
        omega
      | k + 1 =>
        have hlt : n / b < n := Nat.div_lt_self (Nat.pos_of_ne_zero hn) hb
        have hdiv : n / b < b ^ k := by
          rw [Nat.div_lt_iff_lt_mul (by omega : 0 < b)]
          calc n < b ^ (k + 1) := hk
            _ = b ^ k * b := by rw [pow_succ]
        have := ih _ hlt k hdiv
        simp only [List.length_append, List.length_cons, List.length_nil]
        omega

theorem toBaseBE_digits_lt {b : Nat} (hb : 2 ≤ b) :
    ∀ n, ∀ d ∈ toBaseBE b n, d < b := by
  intro n
  induction n using Nat.strong_induction_on with
  | _ n ih =>
    intro d hd
    rw [toBaseBE_eq hb] at hd
    by_cases hn : n = 0
    · simp [hn] at hd
    · rw [if_neg hn] at hd
      rcases List.mem_append.mp hd with h | h
      · exact ih _ (Nat.div_lt_self (Nat.pos_of_ne_zero hn) hb) d h
      · have : d = n % b := by simpa using h
        subst this
        exact Nat.mod_lt _ (by omega)

theorem natDigits_digits_lt (n : Nat) : ∀ d ∈ natDigits n, d < 10 := by
  unfold natDigits
  by_cases hn : n = 0
  · simp [hn]
  · rw [if_neg hn]
    exact toBaseBE_digits_lt (by omega) n

theorem fromBase_natDigits (n : Nat) : fromBase 10 (natDigits n) = n := by
  unfold natDigits
  by_cases hn : n = 0
  · simp [hn, fromBase_cons, fromBase_nil]
  · rw [if_neg hn]
    exact fromBase_toBaseBE (by omega) n

theorem natDigits_ne_nil (n : Nat) : natDigits n ≠ [] := by
  unfold natDigits
  by_cases hn : n = 0
  · simp [hn]
  · rw [if_neg hn, toBaseBE_eq (by omega : 2 ≤ 10), if_neg hn]
    simp

theorem natDigits_length_le {n k : Nat} (hk : 1 ≤ k) (h : n < 10 ^ k) :
    (natDigits n).length ≤ k := by
  unfold natDigits
  by_cases hn : n = 0
  · simpa [hn] using hk
  · rw [if_neg hn]
    exact toBaseBE_length_le (by omega) n k h

/-! ## Lemmas about `prepend_zeroes` -/

theorem prepend_zeroes_length (s : List Nat) (n : Nat) :
    (prepend_zeroes s n).length = max n s.length := by
  simp [prepend_zeroes]
  omega

theorem prepend_zeroes_length_of_le {s : List Nat} {n : Nat} (h : s.length ≤ n) :
    (prepend_zeroes s n).length = n := by
  rw [prepend_zeroes_length]; omega

theorem prepend_zeroes_of_le {s : List Nat} {n : Nat} (h : n ≤ s.length) :
    prepend_zeroes s n = s := by
  unfold prepend_zeroes
  rw [Nat.sub_eq_zero_of_le h]
  simp

theorem prepend_zeroes_digits {b : Nat} (hb : 0 < b) {s : List Nat}
    (h : ∀ d ∈ s, d < b) (n : Nat) : ∀ d ∈ prepend_zeroes s n, d < b := by
  intro d hd
  rcases List.mem_append.mp hd with h' | h'
  · have := List.eq_of_mem_replicate h'
    omega
  · exact h d h'

theorem fromBase_prepend_zeroes (b : Nat) (s : List Nat) (n : Nat) :
    fromBase b (prepend_zeroes s n) = fromBase b s := by
  unfold prepend_zeroes
  rw [fromBase_append, fromBase_replicate_zero]
  ring

theorem prepend_zeroes_toBaseBE_fromBase {b : Nat} (hb : 2 ≤ b) {ds : List Nat}
    (hd : ∀ d ∈ ds, d < b) :
    prepend_zeroes (toBaseBE b (fromBase b ds)) ds.length = ds := by
  have hlen : (toBaseBE b (fromBase b ds)).length ≤ ds.length :=
    toBaseBE_length_le hb _ _ (fromBase_lt (by omega) ds hd)
  apply fromBase_inj (b := b)
  · rw [prepend_zeroes_length]; omega
  · exact prepend_zeroes_digits (by omega) (toBaseBE_digits_lt hb _) _
  · exact hd
  · rw [fromBase_prepend_zeroes, fromBase_toBaseBE hb]

theorem prepend_zeroes_natDigits {k : Nat} (n : Nat) (hk : 1 ≤ k) :
    prepend_zeroes (natDigits n) k = prepend_zeroes (toBaseBE 10 n) k := by
  unfold natDigits
  by_cases hn : n = 0
  · subst hn
    rw [if_pos rfl, toBaseBE_zero]
    simp only [prepend_zeroes, List.length_cons, List.length_nil, List.append_nil]
    rw [show k - 0 = (k - 1) + 1 by omega, List.replicate_succ']
  · rw [if_neg hn]

theorem pad_natDigits_roundtrip {ds : List Nat} (hd : ∀ d ∈ ds, d < 10)
    (hne : 1 ≤ ds.length) :
    prepend_zeroes (natDigits (fromBase 10 ds)) ds.length = ds := by
  rw [prepend_zeroes_natDigits _ hne]
  exact prepend_zeroes_toBaseBE_fromBase (by omega) hd

/-! ## The format constants evaluate as expected -/

theorem storable_bytes_eq : STORABLE_BYTES_PER_FILE = 5 := by decide

theorem storable_digits_eq : STORABLE_DIGITS_PER_FILE = 13 := by decide

theorem nines_index_eq : NINES_INDEX = 9999 := by decide

/-! ## Lemmas about the lexicographic string comparison -/

theorem lexLE_of_lexLT : ∀ {a b : List Nat}, lexLT a b = true → lexLE a b = true
  | [], _, _ => rfl
  | _ :: _, [], h => by simp [lexLT] at h
  | a :: as, b :: bs, h => by
    simp only [lexLT] at h
    simp only [lexLE]
    split_ifs at h ⊢ with h1 h2
    · rfl
    · exact lexLE_of_lexLT h

theorem lexLT_asymm : ∀ {a b : List Nat}, lexLT a b = true → lexLT b a = false
  | [], [], h => by simp [lexLT] at h
  | [], _ :: _, _ => rfl
  | _ :: _, [], h => by simp [lexLT] at h
  | a :: as, b :: bs, h => by
    simp only [lexLT] at h ⊢
    by_cases h1 : a < b
    · simp [h1, show ¬b < a by omega]
    · by_cases h2 : b < a
      · simp [h1, h2] at h
      · simp only [if_neg h1, if_neg h2] at h ⊢
        exact lexLT_asymm h

theorem lexLE_eq_not_lexLT : ∀ a b : List Nat, lexLE a b = (!lexLT b a)
  | [], [] => rfl
  | [], _ :: _ => rfl
  | _ :: _, [] => rfl
  | a :: as, b :: bs => by
    simp only [lexLE, lexLT]
    by_cases h1 : a < b
    · simp [h1, show ¬b < a by omega]
    · by_cases h2 : b < a
      · simp [h1, h2]
      · simp only [if_neg h1, if_neg h2]
        exact lexLE_eq_not_lexLT as bs

theorem lexLT_or_eq_of_not_lexLT : ∀ a b : List Nat,
    lexLT a b = false → lexLT b a = false → a = b
  | [], [], _, _ => rfl
  | [], _ :: _, h, _ => by simp [lexLT] at h
  | _ :: _, [], _, h => by simp [lexLT] at h
  | a :: as, b :: bs, h, h' => by
    simp only [lexLT] at h h'
    by_cases h1 : a < b
    · simp [h1] at h
    · by_cases h2 : b < a
      · simp [h2] at h'
      · have hab : a = b := by omega
        simp only [if_neg h1, if_neg h2] at h
        simp only [if_neg h2, if_neg h1] at h'
        rw [hab, lexLT_or_eq_of_not_lexLT as bs h h']

theorem lexLE_trans : ∀ a b c : List Nat,
    lexLE a b = true → lexLE b c = true → lexLE a c = true
  | [], _, _, _, _ => rfl
  | _ :: _, [], _, hab, _ => by simp [lexLE] at hab
  | _ :: _, _ :: _, [], _, hbc => by simp [lexLE] at hbc
  | a :: as, b :: bs, c :: cs, hab, hbc => by
    simp only [lexLE] at hab hbc ⊢
    by_cases h1 : a < b
    · by_cases h3 : b < c
      · simp [show a < c by omega]
      · by_cases h4 : c < b
        · simp [h3, h4] at hbc
        · simp [show a < c by omega]
    · by_cases h2 : b < a
      · simp [h1, h2] at hab
      · have hab' : a = b := by omega
        subst hab'
        by_cases h3 : a < c
        · simp [h3]
        · by_cases h4 : c < a
          · simp [h3, h4] at hbc
          · simp [h3, h4] at hbc ⊢
            simp at hab
            exact lexLE_trans as bs cs hab hbc

theorem lexLE_antisymm {a b : List Nat} (h : lexLE a b = true)
    (h' : lexLE b a = true) : a = b := by
  rw [lexLE_eq_not_lexLT, Bool.not_eq_true'] at h h'
  exact lexLT_or_eq_of_not_lexLT a b h' h

theorem lexLE_total (a b : List Nat) : lexLE a b = true ∨ lexLE b a = true := by
  rw [lexLE_eq_not_lexLT, lexLE_eq_not_lexLT, Bool.not_eq_true', Bool.not_eq_true']
  rcases h : lexLT b a with _ | _
  · exact Or.inl rfl
  · exact Or.inr (lexLT_asymm h)

/-- On equal-width digit strings, the string comparison agrees with the
comparison of the decimal values (the spec's "equivalently, numerically,
since widths are fixed"). -/
theorem lexLT_iff_val_lt : ∀ {a b : List Nat}, a.length = b.length →
    (∀ d ∈ a, d < 10) → (∀ d ∈ b, d < 10) →
    (lexLT a b = true ↔ fromBase 10 a < fromBase 10 b)
  | [], [], _, _, _ => by simp [lexLT]
  | [], _ :: _, hlen, _, _ => by simp at hlen
  | _ :: _, [], hlen, _, _ => by simp at hlen
  | a :: as, b :: bs, hlen, ha, hb => by
    have hlen' : as.length = bs.length := by simpa using hlen
    have has : ∀ d ∈ as, d < 10 := fun d hd => ha d (List.mem_cons_of_mem _ hd)
    have hbs : ∀ d ∈ bs, d < 10 := fun d hd => hb d (List.mem_cons_of_mem _ hd)
    have h1 : fromBase 10 as < 10 ^ as.length := fromBase_lt (by omega) as has
    have h2 : fromBase 10 bs < 10 ^ as.length := by
      rw [hlen']; exact fromBase_lt (by omega) bs hbs
    simp only [lexLT, fromBase_cons, ← hlen']
    split_ifs with hab hba
    · simp only [true_iff]
      calc a * 10 ^ as.length + fromBase 10 as
          < a * 10 ^ as.length + 10 ^ as.length := Nat.add_lt_add_left h1 _
        _ = (a + 1) * 10 ^ as.length := by ring
        _ ≤ b * 10 ^ as.length := Nat.mul_le_mul_right _ hab
        _ ≤ b * 10 ^ as.length + fromBase 10 bs := Nat.le_add_right _ _
    · simp only [false_iff, not_lt]
      exact le_of_lt
        (calc b * 10 ^ as.length + fromBase 10 bs
            < b * 10 ^ as.length + 10 ^ as.length := Nat.add_lt_add_left h2 _
          _ = (b + 1) * 10 ^ as.length := by ring
          _ ≤ a * 10 ^ as.length := Nat.mul_le_mul_right _ hba
          _ ≤ a * 10 ^ as.length + fromBase 10 as := Nat.le_add_right _ _)
    · have hab' : a = b := by omega
      subst hab'
      rw [lexLT_iff_val_lt hlen' has hbs]
      omega

theorem lexLE_iff_val_le {a b : List Nat} (hlen : a.length = b.length)
    (ha : ∀ d ∈ a, d < 10) (hb : ∀ d ∈ b, d < 10) :
    (lexLE a b = true ↔ fromBase 10 a ≤ fromBase 10 b) := by
  rw [lexLE_eq_not_lexLT, Bool.not_eq_true']
  constructor
  · intro h
    have := (lexLT_iff_val_lt hlen.symm hb ha).not.mp (by simp [h])
    omega
  · intro h
    have := (lexLT_iff_val_lt hlen.symm hb ha).not.mpr (by omega)
    simpa using this

/-! ## Lemmas about chunking and padding -/

theorem chunkAux_fuel {n : Nat} (hn : 1 ≤ n) :
    ∀ f1 f2 (l : List Nat), l.length ≤ f1 → l.length ≤ f2 →
      chunkAux n f1 l = chunkAux n f2 l := by
  have hnil : ∀ f, chunkAux n f ([] : List Nat) = [] := by
    intro f; cases f <;> rfl
  intro f1
  induction f1 with
  | zero =>
    intro f2 l h1 _
    have : l = [] := List.length_eq_zero.mp (by omega)
    subst this
    rw [hnil, hnil]
  | succ f1 ih =>
    intro f2 l h1 h2
    match l, f2 with
    | [], f2 => rw [hnil, hnil]
    | x :: xs, 0 => simp at h2
    | x :: xs, f2 + 1 =>
      simp only [chunkAux]
      simp only [List.length_cons] at h1 h2
      rw [ih f2 ((x :: xs).drop n)
        (by simp only [List.length_drop, List.length_cons]; omega)
        (by simp only [List.length_drop, List.length_cons]; omega)]

theorem chunk_list_eq {l : List Nat} {n : Nat} (hn : 1 ≤ n) :
    chunk_list l n = if l = [] then [] else l.take n :: chunk_list (l.drop n) n := by
  by_cases hl : l = []
  · subst hl; rfl
  · rw [if_neg hl]
    match l, hl with
    | x :: xs, _ =>
      show chunkAux n (x :: xs).length (x :: xs) = _
      simp only [List.length_cons, chunkAux]
      rw [chunkAux_fuel hn xs.length ((x :: xs).drop n).length ((x :: xs).drop n)
        (by simp only [List.length_drop, List.length_cons]; omega) le_rfl]
      rfl

theorem chunk_list_flatten {n : Nat} (hn : 1 ≤ n) (l : List Nat) :
    (chunk_list l n).flatten = l := by
  have H : ∀ k (l : List Nat), l.length ≤ k → (chunk_list l n).flatten = l := by
    intro k
    induction k with
    | zero =>
      intro l h
      have : l = [] := List.length_eq_zero.mp (by omega)
      subst this; rfl
    | succ k ih =>
      intro l h
      rw [chunk_list_eq hn]
      by_cases hl : l = []
      · simp [hl]
      · rw [if_neg hl]
        simp only [List.flatten_cons]
        rw [ih (l.drop n) (by
          have hpos : 0 < l.length := List.length_pos.mpr hl
          simp [List.length_drop]; omega)]
        exact List.take_append_drop n l
  exact H l.length l le_rfl

theorem chunk_list_length {n : Nat} (hn : 1 ≤ n) (l : List Nat)
    (hd : n ∣ l.length) : (chunk_list l n).length = l.length / n := by
  have H : ∀ k (l : List Nat), l.length ≤ k → n ∣ l.length →
      (chunk_list l n).length = l.length / n := by
    intro k
    induction k with
    | zero =>
      intro l h _
      have : l = [] := List.length_eq_zero.mp (by omega)
      subst this; simp [chunk_list, chunkAux]
    | succ k ih =>
      intro l h hdvd
      rw [chunk_list_eq hn]
      by_cases hl : l = []
      · simp [hl]
      · rw [if_neg hl]
        have hpos : 0 < l.length := List.length_pos.mpr hl
        have hge : n ≤ l.length := Nat.le_of_dvd hpos hdvd
        have hdvd' : n ∣ (l.drop n).length := by
          simp only [List.length_drop]
          exact Nat.dvd_sub' hdvd dvd_rfl
        simp only [List.length_cons]
        rw [ih (l.drop n) (by simp [List.length_drop]; omega) hdvd']
        simp only [List.length_drop]
        have heq : l.length = l.length - n + n := by omega
        conv_rhs => rw [heq]
        rw [Nat.add_div_right _ (show 0 < n by omega)]
  exact H l.length l le_rfl hd

theorem chunk_list_mem_length {n : Nat} (hn : 1 ≤ n) (l : List Nat)
    (hd : n ∣ l.length) : ∀ c ∈ chunk_list l n, c.length = n := by
  have H : ∀ k (l : List Nat), l.length ≤ k → n ∣ l.length →
      ∀ c ∈ chunk_list l n, c.length = n := by
    intro k
    induction k with
    | zero =>
      intro l h _ c hc
      have : l = [] := List.length_eq_zero.mp (by omega)
      subst this; simp [chunk_list, chunkAux] at hc
    | succ k ih =>
      intro l h hdvd c hc
      rw [chunk_list_eq hn] at hc
      by_cases hl : l = []
      · simp [hl] at hc
      · rw [if_neg hl] at hc
        have hpos : 0 < l.length := List.length_pos.mpr hl
        have hge : n ≤ l.length := Nat.le_of_dvd hpos hdvd
        rcases List.mem_cons.mp hc with h' | h'
        · subst h'; simp [List.length_take]; omega
        · exact ih (l.drop n) (by simp [List.length_drop]; omega)
            (by simp only [List.length_drop]; exact Nat.dvd_sub' hdvd dvd_rfl) c h'
  exact H l.length l le_rfl hd

theorem chunk_list_mem_mem {n : Nat} (hn : 1 ≤ n) (l : List Nat) :
    ∀ c ∈ chunk_list l n, ∀ d ∈ c, d ∈ l := by
  have H : ∀ k (l : List Nat), l.length ≤ k →
      ∀ c ∈ chunk_list l n, ∀ d ∈ c, d ∈ l := by
    intro k
    induction k with
    | zero =>
      intro l h c hc
      have : l = [] := List.length_eq_zero.mp (by omega)
      subst this; simp [chunk_list, chunkAux] at hc
    | succ k ih =>
      intro l h c hc d hdc
      rw [chunk_list_eq hn] at hc
      by_cases hl : l = []
      · simp [hl] at hc
      · rw [if_neg hl] at hc
        have hpos : 0 < l.length := List.length_pos.mpr hl
        rcases List.mem_cons.mp hc with h' | h'
        · subst h'; exact List.take_subset n l hdc
        · exact List.drop_subset n l
            (ih (l.drop n) (by simp [List.length_drop]; omega) c h' d hdc)
  exact H l.length l le_rfl

theorem padToMultiple_mod (l : List Nat) :
    (padToMultiple l).length % STORABLE_BYTES_PER_FILE = 0 := by
  simp only [padToMultiple, List.length_append, List.length_replicate, storable_bytes_eq]
  omega

theorem padToMultiple_digits {l : List Nat} (h : ∀ d ∈ l, d < 256) :
    ∀ d ∈ padToMultiple l, d < 256 := by
  intro d hd
  rcases List.mem_append.mp hd with h' | h'
  · have := List.eq_of_mem_replicate h'
    omega
  · exact h d h'

/-! ## Lemmas about the modelled Reed-Solomon codec -/

theorem rsEncode_length (m : List Nat) :
    (rsEncode m).length = m.length + ERROR_CORRECTING_BYTES := by
  simp [rsEncode, rsParity]

theorem rsEncode_digits {m : List Nat} (h : ∀ d ∈ m, d < 256) :
    ∀ d ∈ rsEncode m, d < 256 := by
  intro d hd
  rcases List.mem_append.mp hd with h' | h'
  · exact h d h'
  · have := List.eq_of_mem_replicate h'
    subst this
    exact Nat.mod_lt _ (by omega)

theorem rsDecode_rsEncode (m : List Nat) : rsDecode (rsEncode m) = .ok m := by
  have htake : (rsEncode m).take ((rsEncode m).length - ERROR_CORRECTING_BYTES) = m := by
    rw [rsEncode_length, Nat.add_sub_cancel]
    show (m ++ rsParity m).take m.length = m
    exact List.take_left m (rsParity m)
  simp [rsDecode, htake]

/-! ## Characterization of the planning loop -/

/-- The data-field rendering of a full-size chunk never exceeds 13 digits:
`int_from_bytes c < 256^5 ≤ 10^13 - 1 + 1`. -/
theorem natDigits_chunk_le {c : List Nat} (hok : ChunkOK c) :
    (natDigits (int_from_bytes c)).length ≤ STORABLE_DIGITS_PER_FILE := by
  obtain ⟨h5, hb⟩ := hok
  have hv : int_from_bytes c < 256 ^ c.length := fromBase_lt (by omega) c hb
  rw [h5, storable_bytes_eq] at hv
  rw [storable_digits_eq]
  exact natDigits_length_le (by omega)
    (lt_of_lt_of_le hv (by norm_num))

theorem dataStrings_length (i : Nat) (cs : List (List Nat)) :
    (dataStrings i cs).length = cs.length := by
  induction cs generalizing i with
  | nil => rfl
  | cons c cs ih => simp [dataStrings, ih]

theorem planLoop_no_trigger :
    ∀ (cs : List (List Nat)) (i : Nat) (r : Int), 1 ≤ i →
      i + cs.length ≤ NINES_INDEX - 1 → (∀ c ∈ cs, ChunkOK c) →
      planLoop i r cs = .ok (dataStrings i cs) := by
  intro cs
  induction cs with
  | nil => intro i r _ _ _; rfl
  | cons c cs ih =>
    intro i r hi hlen hwf
    have hok : ChunkOK c := hwf c (List.mem_cons_self _ _)
    have hs := natDigits_chunk_le hok
    have hi1 : i ≠ 0 := by omega
    have hi2 : i ≠ NINES_INDEX - 1 := by
      rw [nines_index_eq] at hlen ⊢
      simp only [List.length_cons] at hlen
      omega
    simp only [planLoop, if_neg (by omega : ¬ STORABLE_DIGITS_PER_FILE <
      (natDigits (int_from_bytes c)).length),
      if_neg (by simp [hi1, hi2] : ¬(i = 0 ∨ i = NINES_INDEX - 1))]
    rw [ih (i + 1) r (by omega) (by simp only [List.length_cons] at hlen; omega)
      (fun x hx => hwf x (List.mem_cons_of_mem _ hx))]
    rfl

theorem planLoop_end_trigger :
    ∀ (as : List (List Nat)) (b : List Nat) (i : Nat) (r : Int), 1 ≤ i →
      i + as.length = NINES_INDEX - 1 → (∀ c ∈ as, ChunkOK c) → ChunkOK b →
      planLoop i r (as ++ [b]) = .ok (dataStrings i as ++
        [prepend_chunk (natDigits 0) (natDigits r.toNat),
         prepend_chunk (natDigits 1) (natDigits (int_from_bytes b))]) := by
  intro as
  induction as with
  | nil =>
    intro b i r hi hlen hwf hb
    have hs := natDigits_chunk_le hb
    simp only [List.length_nil, Nat.add_zero] at hlen
    subst hlen
    simp only [List.nil_append, planLoop,
      if_neg (by omega : ¬ STORABLE_DIGITS_PER_FILE <
        (natDigits (int_from_bytes b)).length),
      if_pos (Or.inr rfl : NINES_INDEX - 1 = 0 ∨ NINES_INDEX - 1 = NINES_INDEX - 1)]
    rfl
  | cons a as ih =>
    intro b i r hi hlen hwf hb
    have hok : ChunkOK a := hwf a (List.mem_cons_self _ _)
    have hs := natDigits_chunk_le hok
    have hi1 : i ≠ 0 := by omega
    have hi2 : i ≠ NINES_INDEX - 1 := by
      rw [nines_index_eq] at hlen ⊢
      simp only [List.length_cons] at hlen
      omega
    simp only [List.cons_append, planLoop, List.append_eq,
      if_neg (by omega : ¬ STORABLE_DIGITS_PER_FILE <
        (natDigits (int_from_bytes a)).length),
      if_neg (by simp [hi1, hi2] : ¬(i = 0 ∨ i = NINES_INDEX - 1))]
    rw [ih b (i + 1) r (by omega)
      (by simp only [List.length_cons] at hlen; omega)
      (fun x hx => hwf x (List.mem_cons_of_mem _ hx)) hb]
    rfl

theorem planChunks_nil : planChunks [] = .ok [] := rfl

theorem planLoop_start {c : List Nat} (cs : List (List Nat)) (r : Int)
    (hok : ChunkOK c) :
    planLoop 0 r (c :: cs) =
      match planLoop 2 (r - ((NINES_INDEX - 1 : Nat) : Int)) cs with
      | .error e => .error e
      | .ok rest => .ok (prepend_chunk (natDigits 0) (natDigits r.toNat) ::
          prepend_chunk (natDigits 1) (natDigits (int_from_bytes c)) :: rest) := by
  have hs := natDigits_chunk_le hok
  simp only [planLoop,
    if_neg (by omega : ¬ STORABLE_DIGITS_PER_FILE <
      (natDigits (int_from_bytes c)).length)]
  rw [if_pos (Or.inl trivial : True ∨ (0 : Nat) = NINES_INDEX - 1)]

theorem planChunks_small {cs : List (List Nat)} (hlen : cs.length ≤ NINES_INDEX - 2)
    (hne : cs ≠ []) (hwf : ∀ c ∈ cs, ChunkOK c) :
    planChunks cs = .ok (idxRecord cs.length :: dataStrings 1 cs) := by
  match cs, hne with
  | c :: cs', _ =>
    have hok : ChunkOK c := hwf c (List.mem_cons_self _ _)
    have hs := natDigits_chunk_le hok
    have hguard : ¬ (NINES_INDEX - 1 : Nat) < (c :: cs').length := by
      rw [nines_index_eq] at hlen ⊢
      omega
    simp only [planChunks, if_neg hguard]
    rw [planLoop_start _ _ hok,
      planLoop_no_trigger cs' 2 _ (by omega)
        (by rw [nines_index_eq]; simp only [List.length_cons] at hlen ⊢;
            rw [nines_index_eq] at hlen; omega)
        (fun x hx => hwf x (List.mem_cons_of_mem _ hx))]
    simp only [Int.toNat_ofNat, idxRecord, dataStrings]

theorem planChunks_at_cap {cs : List (List Nat)}
    (hlen : cs.length = NINES_INDEX - 1) (hwf : ∀ c ∈ cs, ChunkOK c) :
    ∃ rest, planChunks cs = .ok (idxRecord (NINES_INDEX - 1) :: rest) ∧
      rest.length = NINES_INDEX ∧ idxRecord 0 ∈ rest := by
  match cs, hlen with
  | c :: cs', hlen =>
    have hcs' : cs'.length = NINES_INDEX - 2 := by
      rw [nines_index_eq] at hlen ⊢
      simp only [List.length_cons] at hlen
      omega
    have hne : cs' ≠ [] := by
      intro h
      rw [h] at hcs'
      rw [nines_index_eq] at hcs'
      simp at hcs'
    obtain ⟨as, b, rfl⟩ : ∃ as b, cs' = as ++ [b] :=
      ⟨cs'.dropLast, cs'.getLast hne, (List.dropLast_append_getLast hne).symm⟩
    have has : as.length = NINES_INDEX - 3 := by
      rw [nines_index_eq] at hcs' ⊢
      simp only [List.length_append, List.length_cons, List.length_nil] at hcs'
      omega
    have hok : ChunkOK c := hwf c (List.mem_cons_self _ _)
    have hs := natDigits_chunk_le hok
    have hguard : ¬ (NINES_INDEX - 1 : Nat) < (c :: (as ++ [b])).length := by
      rw [nines_index_eq] at hlen ⊢
      omega
    refine ⟨prepend_chunk (natDigits 1) (natDigits (int_from_bytes c)) ::
      (dataStrings 2 as ++
        [prepend_chunk (natDigits 0) (natDigits (0 : Int).toNat),
         prepend_chunk (natDigits 1) (natDigits (int_from_bytes b))]), ?_, ?_, ?_⟩
    · simp only [planChunks, if_neg hguard]
      rw [planLoop_start _ _ hok,
        planLoop_end_trigger as b 2 _ (by omega)
          (by rw [nines_index_eq] at has ⊢; omega)
          (fun x hx => hwf x (List.mem_cons_of_mem _ (List.mem_append_left _ hx)))
          (hwf b (List.mem_cons_of_mem _ (List.mem_append_right _ (List.mem_singleton.mpr rfl)))),
        hlen]
      simp only [Int.sub_self, Int.toNat_ofNat, Int.toNat_zero, idxRecord]
    · simp only [List.length_cons, List.length_append, dataStrings_length,
        List.length_nil, has, nines_index_eq]
    · right
      exact List.mem_append_right _ (List.mem_cons_self _ _)

/-! ## Structure of the emitted digit strings -/

theorem digits_for_index_eq : DIGITS_FOR_INDEX = 4 := rfl

theorem prepend_chunk_take {x : List Nat} (y : List Nat) (hx : x.length ≤ DIGITS_FOR_INDEX) :
    (prepend_chunk x y).take DIGITS_FOR_INDEX = prepend_zeroes x DIGITS_FOR_INDEX := by
  unfold prepend_chunk
  exact List.take_left' (prepend_zeroes_length_of_le hx)

theorem prepend_chunk_drop {x : List Nat} (y : List Nat) (hx : x.length ≤ DIGITS_FOR_INDEX) :
    (prepend_chunk x y).drop DIGITS_FOR_INDEX = prepend_zeroes y STORABLE_DIGITS_PER_FILE := by
  unfold prepend_chunk
  exact List.drop_left' (prepend_zeroes_length_of_le hx)

theorem prepend_chunk_index {i : Nat} (y : List Nat) (hi : i < 10 ^ DIGITS_FOR_INDEX) :
    fromBase 10 ((prepend_chunk (natDigits i) y).take DIGITS_FOR_INDEX) = i := by
  rw [prepend_chunk_take y (natDigits_length_le (by decide) hi),
    fromBase_prepend_zeroes, fromBase_natDigits]

theorem prepend_chunk_data {x : List Nat} (v : Nat) (hx : x.length ≤ DIGITS_FOR_INDEX) :
    fromBase 10 ((prepend_chunk x (natDigits v)).drop DIGITS_FOR_INDEX) = v := by
  rw [prepend_chunk_drop _ hx, fromBase_prepend_zeroes, fromBase_natDigits]

theorem prepend_chunk_strok {i v : Nat} (hi : i < 10 ^ DIGITS_FOR_INDEX)
    (hv : v < 10 ^ STORABLE_DIGITS_PER_FILE) :
    StrOK (prepend_chunk (natDigits i) (natDigits v)) := by
  have hxi : (natDigits i).length ≤ DIGITS_FOR_INDEX :=
    natDigits_length_le (by decide) hi
  have hxv : (natDigits v).length ≤ STORABLE_DIGITS_PER_FILE :=
    natDigits_length_le (by rw [storable_digits_eq]; omega) hv
  constructor
  · unfold prepend_chunk
    rw [List.length_append, prepend_zeroes_length_of_le hxi,
      prepend_zeroes_length_of_le hxv]
    decide
  · intro d hd
    rcases List.mem_append.mp hd with h' | h'
    · exact prepend_zeroes_digits (by omega) (natDigits_digits_lt i) _ d h'
    · exact prepend_zeroes_digits (by omega) (natDigits_digits_lt v) _ d h'

theorem prepend_chunk_val {i v : Nat} (hv : v < 10 ^ STORABLE_DIGITS_PER_FILE) :
    fromBase 10 (prepend_chunk (natDigits i) (natDigits v)) =
      i * 10 ^ STORABLE_DIGITS_PER_FILE + v := by
  have hxv : (natDigits v).length ≤ STORABLE_DIGITS_PER_FILE :=
    natDigits_length_le (by rw [storable_digits_eq]; omega) hv
  unfold prepend_chunk
  rw [fromBase_append, prepend_zeroes_length_of_le hxv,
    fromBase_prepend_zeroes, fromBase_prepend_zeroes,
    fromBase_natDigits, fromBase_natDigits]

theorem chunk_val_lt {c : List Nat} (hok : ChunkOK c) :
    int_from_bytes c < 10 ^ STORABLE_DIGITS_PER_FILE := by
  obtain ⟨h5, hb⟩ := hok
  have hv : int_from_bytes c < 256 ^ c.length := fromBase_lt (by omega) c hb
  rw [h5, storable_bytes_eq] at hv
  rw [storable_digits_eq]
  exact lt_of_lt_of_le hv (by norm_num)

theorem sentinel_strok : StrOK sentinel := by
  constructor
  · rfl
  · intro d hd
    have := List.eq_of_mem_replicate hd
    omega

theorem sentinel_val : fromBase 10 sentinel = 10 ^ 17 - 1 := by decide

theorem sentinel_index : fromBase 10 (sentinel.take DIGITS_FOR_INDEX) ≠ 0 := by decide

theorem idxRecord_strok {n : Nat} (hn : n < 10 ^ STORABLE_DIGITS_PER_FILE) :
    StrOK (idxRecord n) :=
  prepend_chunk_strok (by rw [digits_for_index_eq]; omega) hn

theorem idxRecord_index (n : Nat) :
    fromBase 10 ((idxRecord n).take DIGITS_FOR_INDEX) = 0 :=
  prepend_chunk_index _ (by rw [digits_for_index_eq]; omega)

theorem idxRecord_data {n : Nat} (hn : n < 10 ^ STORABLE_DIGITS_PER_FILE) :
    fromBase 10 ((idxRecord n).drop DIGITS_FOR_INDEX) = n :=
  prepend_chunk_data n (by simp [natDigits, digits_for_index_eq])

theorem idxRecord_val {n : Nat} (hn : n < 10 ^ STORABLE_DIGITS_PER_FILE) :
    fromBase 10 (idxRecord n) = n := by
  unfold idxRecord
  rw [prepend_chunk_val hn]
  simp [natDigits, fromBase_cons, fromBase_nil]

/-! ## Digit strings emitted for a run of data chunks -/

theorem dataStrings_mem {cs : List (List Nat)} :
    ∀ {i s}, s ∈ dataStrings i cs → ∃ j c, c ∈ cs ∧ i ≤ j ∧ j < i + cs.length ∧
      s = prepend_chunk (natDigits j) (natDigits (int_from_bytes c)) := by
  induction cs with
  | nil => intro i s hs; simp [dataStrings] at hs
  | cons c cs ih =>
    intro i s hs
    rcases List.mem_cons.mp hs with h | h
    · exact ⟨i, c, List.mem_cons_self _ _, le_rfl,
        by simp only [List.length_cons]; omega, h⟩
    · obtain ⟨j, c', hc', hij, hlt, rfl⟩ := ih h
      exact ⟨j, c', List.mem_cons_of_mem _ hc', by omega,
        by simp only [List.length_cons]; omega, rfl⟩

theorem dataStrings_strok {cs : List (List Nat)} {i : Nat}
    (hwf : ∀ c ∈ cs, ChunkOK c) (hhi : i + cs.length ≤ NINES_INDEX - 1) :
    ∀ s ∈ dataStrings i cs, StrOK s := by
  intro s hs
  obtain ⟨j, c, hc, hij, hlt, rfl⟩ := dataStrings_mem hs
  exact prepend_chunk_strok
    (by rw [digits_for_index_eq]; rw [nines_index_eq] at hhi; omega)
    (chunk_val_lt (hwf c hc))

theorem dataStrings_val_lt {cs : List (List Nat)} {i : Nat}
    (hwf : ∀ c ∈ cs, ChunkOK c) (hhi : i + cs.length ≤ NINES_INDEX - 1) :
    ∀ s ∈ dataStrings i cs, fromBase 10 s < 10 ^ 17 - 1 := by
  intro s hs
  obtain ⟨j, c, hc, hij, hlt, rfl⟩ := dataStrings_mem hs
  rw [prepend_chunk_val (chunk_val_lt (hwf c hc))]
  have hv := chunk_val_lt (hwf c hc)
  rw [storable_digits_eq] at hv ⊢
  rw [nines_index_eq] at hhi
  have hj : j ≤ 9997 := by omega
  calc j * 10 ^ 13 + int_from_bytes c < j * 10 ^ 13 + 10 ^ 13 := by omega
    _ = (j + 1) * 10 ^ 13 := by ring
    _ ≤ 9998 * 10 ^ 13 := by
        exact Nat.mul_le_mul_right _ (by omega)
    _ < 10 ^ 17 - 1 := by norm_num

theorem dataStrings_val_ge {cs : List (List Nat)} {i : Nat}
    (hwf : ∀ c ∈ cs, ChunkOK c) :
    ∀ s ∈ dataStrings i cs, i * 10 ^ STORABLE_DIGITS_PER_FILE ≤ fromBase 10 s := by
  intro s hs
  obtain ⟨j, c, hc, hij, hlt, rfl⟩ := dataStrings_mem hs
  rw [prepend_chunk_val (chunk_val_lt (hwf c hc))]
  have : i * 10 ^ STORABLE_DIGITS_PER_FILE ≤ j * 10 ^ STORABLE_DIGITS_PER_FILE :=
    Nat.mul_le_mul_right _ hij
  omega

theorem dataStrings_sorted {cs : List (List Nat)} :
    ∀ {i : Nat}, 1 ≤ i → i + cs.length ≤ NINES_INDEX - 1 →
      (∀ c ∈ cs, ChunkOK c) → List.Sorted digLT (dataStrings i cs) := by
  induction cs with
  | nil => intro i _ _ _; exact List.sorted_nil
  | cons c cs ih =>
    intro i hi hhi hwf
    simp only [List.length_cons] at hhi
    have hwf' : ∀ x ∈ cs, ChunkOK x := fun x hx => hwf x (List.mem_cons_of_mem _ hx)
    rw [dataStrings, List.sorted_cons]
    constructor
    · intro b hb
      have hokc := hwf c (List.mem_cons_self _ _)
      have hhead : StrOK (prepend_chunk (natDigits i) (natDigits (int_from_bytes c))) :=
        prepend_chunk_strok
          (by rw [digits_for_index_eq]; rw [nines_index_eq] at hhi; omega)
          (chunk_val_lt hokc)
      have hbok : StrOK b := dataStrings_strok hwf' (by omega) b hb
      show lexLT _ b = true
      rw [lexLT_iff_val_lt (by rw [hhead.1, hbok.1]) hhead.2 hbok.2]
      have hge := dataStrings_val_ge hwf' b hb
      have hlt' : fromBase 10 (prepend_chunk (natDigits i) (natDigits (int_from_bytes c)))
          < (i + 1) * 10 ^ STORABLE_DIGITS_PER_FILE := by
        rw [prepend_chunk_val (chunk_val_lt hokc)]
        have := chunk_val_lt hokc
        have h1 : (i + 1) * 10 ^ STORABLE_DIGITS_PER_FILE
            = i * 10 ^ STORABLE_DIGITS_PER_FILE + 10 ^ STORABLE_DIGITS_PER_FILE := by ring
        omega
      exact lt_of_lt_of_le hlt' (hge)
    · exact ih (by omega) (by omega) hwf'

theorem dataStrings_lt_sentinel {cs : List (List Nat)} {i : Nat}
    (hwf : ∀ c ∈ cs, ChunkOK c) (hhi : i + cs.length ≤ NINES_INDEX - 1) :
    ∀ s ∈ dataStrings i cs, digLT s sentinel := by
  intro s hs
  have hsok : StrOK s := dataStrings_strok hwf hhi s hs
  show lexLT s sentinel = true
  rw [lexLT_iff_val_lt (by rw [hsok.1, sentinel_strok.1]) hsok.2 sentinel_strok.2,
    sentinel_val]
  exact dataStrings_val_lt hwf hhi s hs

/-! ## The scanning loop -/

theorem extractScan_dataStrings (cs : List (List Nat)) :
    ∀ (i : Nat) (tail : List (List Nat)), 1 ≤ i →
      i + cs.length ≤ NINES_INDEX - 1 → (∀ c ∈ cs, ChunkOK c) →
      extractScan true cs.length (dataStrings i cs ++ tail) =
        cs.flatten ++ extractScan true 0 tail := by
  induction cs with
  | nil => intro i tail _ _ _; rfl
  | cons c cs ih =>
    intro i tail hi hhi hwf
    simp only [List.length_cons] at hhi
    have hokc := hwf c (List.mem_cons_self _ _)
    have hwf' : ∀ x ∈ cs, ChunkOK x := fun x hx => hwf x (List.mem_cons_of_mem _ hx)
    have hidx : fromBase 10 ((prepend_chunk (natDigits i)
        (natDigits (int_from_bytes c))).take DIGITS_FOR_INDEX) = i :=
      prepend_chunk_index _ (by
        rw [digits_for_index_eq]; rw [nines_index_eq] at hhi; omega)
    have hdata : fromBase 10 ((prepend_chunk (natDigits i)
        (natDigits (int_from_bytes c))).drop DIGITS_FOR_INDEX) = int_from_bytes c :=
      prepend_chunk_data _ (natDigits_length_le (by decide) (by
        rw [digits_for_index_eq]; rw [nines_index_eq] at hhi; omega))
    have hbyte : prepend_zeroes (int_to_bytes (int_from_bytes c))
        STORABLE_BYTES_PER_FILE = c := by
      obtain ⟨h5, hb⟩ := hokc
      rw [← h5]
      exact prepend_zeroes_toBaseBE_fromBase (by omega) hb
    have hrec := ih (i + 1) tail (by omega) (by omega) hwf'
    simp only [dataStrings, List.cons_append, List.length_cons, extractScan,
      hidx, if_pos (by omega : i ≠ 0), Bool.not_true, Bool.false_eq_true,
      if_pos (by omega : 0 < cs.length + 1),
      hdata, hbyte, Nat.add_sub_cancel, List.append_eq]
    rw [if_neg not_false, hrec]
    simp [List.flatten_cons, List.append_assoc]

theorem extractScan_sentinels (found : Bool) :
    ∀ k, extractScan found 0 (List.replicate k sentinel) = [] := by
  intro k
  induction k with
  | zero => rfl
  | succ k ih =>
    rw [List.replicate_succ]
    show extractScan found 0 (sentinel :: _) = []
    simp only [extractScan, if_pos sentinel_index]
    cases found with
    | false => simpa using ih
    | true => simp

theorem extractScan_no_record :
    ∀ (L : List (List Nat)) (r : Nat),
      (∀ s ∈ L, fromBase 10 (s.take DIGITS_FOR_INDEX) ≠ 0) →
      extractScan false r L = [] := by
  intro L
  induction L with
  | nil => intro r _; rfl
  | cons s L ih =>
    intro r h
    simp only [extractScan, if_pos (h s (List.mem_cons_self _ _)), Bool.not_false,
      if_pos rfl]
    exact ih r fun x hx => h x (List.mem_cons_of_mem _ hx)

/-! ## Sorting a written block back into plan order -/

theorem lexLE_refl : ∀ a : List Nat, lexLE a a = true
  | [] => rfl
  | a :: as => by
    simp only [lexLE, lt_irrefl, if_neg (lt_irrefl a)]
    exact lexLE_refl as

theorem sorted_replicate_sentinel (k : Nat) :
    List.Sorted digLE (List.replicate k sentinel) := by
  induction k with
  | zero => exact List.sorted_nil
  | succ k ih =>
    rw [List.replicate_succ, List.sorted_cons]
    exact ⟨fun b hb => by
      have := List.eq_of_mem_replicate hb
      subst this
      exact lexLE_refl sentinel, ih⟩

theorem sortStrings_block {P : List (List Nat)} (hP : List.Sorted digLT P)
    (hPs : ∀ s ∈ P, digLT s sentinel) (o k : Nat) :
    sortStrings (List.replicate o sentinel ++ P ++ List.replicate k sentinel) =
      P ++ List.replicate (o + k) sentinel := by
  haveI : IsTrans (List Nat) digLE := ⟨fun a b c => lexLE_trans a b c⟩
  haveI : IsAntisymm (List Nat) digLE := ⟨fun _ _ => lexLE_antisymm⟩
  haveI : IsTotal (List Nat) digLE := ⟨lexLE_total⟩
  have hperm : List.Perm
      (List.replicate o sentinel ++ P ++ List.replicate k sentinel)
      (P ++ List.replicate (o + k) sentinel) := by
    have h2 := (@List.perm_append_comm _ (List.replicate o sentinel) P).append_right
      (List.replicate k sentinel)
    have h3 : (P ++ List.replicate o sentinel) ++ List.replicate k sentinel
        = P ++ List.replicate (o + k) sentinel := by
      rw [List.append_assoc, ← List.replicate_add]
    exact h3 ▸ h2
  have hsorted : List.Sorted digLE (P ++ List.replicate (o + k) sentinel) := by
    refine List.pairwise_append.mpr ⟨List.Pairwise.imp (fun h => lexLE_of_lexLT h) hP,
      sorted_replicate_sentinel _, ?_⟩
    intro a ha b hb
    have := List.eq_of_mem_replicate hb
    subst this
    exact lexLE_of_lexLT (hPs a ha)
  exact List.eq_of_perm_of_sorted
    ((List.perm_insertionSort digLE _).trans hperm)
    (List.sorted_insertionSort digLE _) hsorted

/-! ## The carrier timestamp mapping -/

theorem readFile_writeFile {s : List Nat} (f : FileTimes) (hok : StrOK s) :
    readFile (writeFile f s) = s := by
  obtain ⟨h17, hdig⟩ := hok
  have htake3 : (s.take 3).length = 3 := by simp [List.length_take, h17]
  have hdrop3take7 : ((s.drop 3).take 7).length = 7 := by
    simp [List.length_take, List.length_drop, h17]
  have hdrop10 : (s.drop 10).length = 7 := by rw [List.length_drop, h17]
  have hv1 : fromBase 10 (s.take 3) < 1000 := by
    have := fromBase_lt (show 0 < 10 by omega) (s.take 3)
      (fun d hd => hdig d (List.take_subset _ _ hd))
    rw [htake3] at this
    norm_num at this
    exact this
  have hv2 : fromBase 10 ((s.drop 3).take 7) < 10000000 := by
    have := fromBase_lt (show 0 < 10 by omega) ((s.drop 3).take 7)
      (fun d hd => hdig d (List.drop_subset _ _ (List.take_subset _ _ hd)))
    rw [hdrop3take7] at this
    norm_num at this
    exact this
  have hv3 : fromBase 10 (s.drop 10) < 10000000 := by
    have := fromBase_lt (show 0 < 10 by omega) (s.drop 10)
      (fun d hd => hdig d (List.drop_subset _ _ hd))
    rw [hdrop10] at this
    norm_num at this
    exact this
  unfold readFile writeFile floor_billionths
  simp only
  have e1 : fromBase 10 (s.take 3) * 1000 / 1000 = fromBase 10 (s.take 3) := by omega
  have e2 : (f.atime_ns / 1000000000 * 1000000000 +
      fromBase 10 ((s.drop 3).take 7) * 100) % 1000000000 / 100 =
      fromBase 10 ((s.drop 3).take 7) := by omega
  have e3 : (f.mtime_ns / 1000000000 * 1000000000 +
      fromBase 10 (s.drop 10) * 100) % 1000000000 / 100 =
      fromBase 10 (s.drop 10) := by omega
  rw [e1, e2, e3]
  have p1 : prepend_zeroes (natDigits (fromBase 10 (s.take 3))) 3 = s.take 3 := by
    have := pad_natDigits_roundtrip
      (fun d hd => hdig d (List.take_subset _ _ hd)) (by rw [htake3]; omega)
    rwa [htake3] at this
  have p2 : prepend_zeroes (natDigits (fromBase 10 ((s.drop 3).take 7))) 7 =
      (s.drop 3).take 7 := by
    have := pad_natDigits_roundtrip
      (fun d hd => hdig d (List.drop_subset _ _ (List.take_subset _ _ hd)))
      (by rw [hdrop3take7]; omega)
    rwa [hdrop3take7] at this
  have p3 : prepend_zeroes (natDigits (fromBase 10 (s.drop 10))) 7 = s.drop 10 := by
    have := pad_natDigits_roundtrip
      (fun d hd => hdig d (List.drop_subset _ _ hd)) (by rw [hdrop10]; omega)
    rwa [hdrop10] at this
  rw [p1, p2, p3]
  have hdd : (s.drop 3).drop 7 = s.drop 10 := by
    rw [List.drop_drop]
  rw [← hdd, List.append_assoc, List.take_append_drop, List.take_append_drop]

theorem readFile_resetFile (f : FileTimes) : readFile (resetFile f) = sentinel := by
  unfold readFile resetFile floor_billionths
  simp only
  have e2 : (f.atime_ns / 1000000000 * 1000000000 + 9999999 * 100) % 1000000000 / 100
      = 9999999 := by omega
  have e3 : (f.mtime_ns / 1000000000 * 1000000000 + 9999999 * 100) % 1000000000 / 100
      = 9999999 := by omega
  rw [e2, e3]
  decide

theorem map_read_reset (pool : List FileTimes) :
    pool.map (fun f => readFile (resetFile f)) =
      List.replicate pool.length sentinel := by
  induction pool with
  | nil => rfl
  | cons f pool ih => simp [readFile_resetFile, ih, List.replicate_succ]

theorem map_read_zipWith_write :
    ∀ (strs : List (List Nat)) (fs : List FileTimes), (∀ s ∈ strs, StrOK s) →
      strs.length ≤ fs.length →
      (List.zipWith writeFile fs strs).map readFile = strs := by
  intro strs
  induction strs with
  | nil => intro fs _ _; simp
  | cons s strs ih =>
    intro fs hwf hlen
    match fs with
    | [] => simp at hlen
    | f :: fs =>
      simp only [List.zipWith_cons_cons, List.map_cons]
      rw [readFile_writeFile f (hwf s (List.mem_cons_self _ _)),
        ih fs (fun x hx => hwf x (List.mem_cons_of_mem _ hx))
          (by simp only [List.length_cons] at hlen ⊢; omega)]

theorem map_readFile_writeAt {pool : List FileTimes} {strs : List (List Nat)}
    {offset : Nat} (hwf : ∀ s ∈ strs, StrOK s)
    (hlen : offset + strs.length ≤ pool.length) :
    (writeAt (pool.map resetFile) offset strs).map readFile =
      List.replicate offset sentinel ++ strs ++
        List.replicate (pool.length - offset - strs.length) sentinel := by
  unfold writeAt
  simp only [List.map_append]
  have h1 : ((pool.map resetFile).take offset).map readFile =
      List.replicate offset sentinel := by
    rw [← List.map_take, List.map_map]
    have := map_read_reset (pool.take offset)
    simp only [Function.comp_def] at this ⊢
    rw [this, List.length_take]
    congr 1
    omega
  have h2 : (List.zipWith writeFile ((pool.map resetFile).drop offset) strs).map
      readFile = strs :=
    map_read_zipWith_write strs _ hwf
      (by rw [List.length_drop, List.length_map]; omega)
  have h3 : ((pool.map resetFile).drop (offset + strs.length)).map readFile =
      List.replicate (pool.length - offset - strs.length) sentinel := by
    rw [← List.map_drop, List.map_map]
    have := map_read_reset (pool.drop (offset + strs.length))
    simp only [Function.comp_def] at this ⊢
    rw [this, List.length_drop]
    congr 1
    omega
  rw [h1, h2, h3]

/-! ## Trimming and splitting during extraction -/

theorem rsplitDot_no_dot : ∀ {l : List Nat}, 46 ∉ l →
    rsplitDot l = .error .indexError := by
  intro l
  induction l with
  | nil => intro _; rfl
  | cons d rest ih =>
    intro h
    have hd : d ≠ 46 := fun hdeq => h (hdeq ▸ List.mem_cons_self _ _)
    have hrest : 46 ∉ rest := fun hr => h (List.mem_cons_of_mem _ hr)
    simp only [rsplitDot, ih hrest, if_neg hd]

theorem rsplitDot_append {p e : List Nat} (he : 46 ∉ e) :
    rsplitDot (p ++ 46 :: e) = .ok (p, e) := by
  induction p with
  | nil =>
    simp [List.nil_append, rsplitDot, rsplitDot_no_dot he]
  | cons a p ih =>
    simp only [List.cons_append, rsplitDot, List.append_eq, ih]

theorem trimLeadingZeros_pad {x : List Nat} {d : Nat} (hd : d ≠ 0) :
    ∀ k, trimLeadingZeros (List.replicate k 0 ++ d :: x) = .ok (d :: x) := by
  intro k
  induction k with
  | zero =>
    obtain ⟨m, rfl⟩ : ∃ m, d = m + 1 := ⟨d - 1, by omega⟩
    rfl
  | succ k ih =>
    rw [List.replicate_succ, List.cons_append]
    show trimLeadingZeros (0 :: _) = _
    rw [show trimLeadingZeros (0 :: (List.replicate k 0 ++ d :: x)) =
      trimLeadingZeros (List.replicate k 0 ++ d :: x) from rfl, ih]

/-! ## Every planned digit string is well formed and below the sentinel -/

theorem prepend_chunk_val_lt {j v : Nat} (hj : j ≤ NINES_INDEX - 2)
    (hv : v < 10 ^ STORABLE_DIGITS_PER_FILE) :
    fromBase 10 (prepend_chunk (natDigits j) (natDigits v)) < 10 ^ 17 - 1 := by
  rw [prepend_chunk_val hv]
  rw [storable_digits_eq] at hv ⊢
  rw [nines_index_eq] at hj
  have e13 : (10 : Nat) ^ 13 = 10000000000000 := by norm_num
  have e17 : (10 : Nat) ^ 17 = 100000000000000000 := by norm_num
  rw [e13] at hv ⊢
  rw [e17]
  have : j * 10000000000000 ≤ 9997 * 10000000000000 := Nat.mul_le_mul_right _ hj
  omega

theorem planLoop_strings :
    ∀ (cs : List (List Nat)) (i : Nat) (r : Int) (strs : List (List Nat)),
      planLoop i r cs = .ok strs → i ≤ NINES_INDEX - 1 →
      r ≤ ((NINES_INDEX - 1 : Nat) : Int) → (∀ c ∈ cs, ChunkOK c) →
      ∀ s ∈ strs, StrOK s ∧ fromBase 10 s < 10 ^ 17 - 1 := by
  intro cs
  induction cs with
  | nil =>
    intro i r strs h _ _ _ s hs
    simp only [planLoop, Except.ok.injEq] at h
    subst h
    simp at hs
  | cons c cs ih =>
    intro i r strs h hi hr hwf s hs
    have hokc := hwf c (List.mem_cons_self _ _)
    have hwf' : ∀ x ∈ cs, ChunkOK x := fun x hx => hwf x (List.mem_cons_of_mem _ hx)
    have hsl := natDigits_chunk_le hokc
    have hvc := chunk_val_lt hokc
    rw [planLoop] at h
    rw [if_neg (by omega : ¬ STORABLE_DIGITS_PER_FILE <
      (natDigits (int_from_bytes c)).length)] at h
    have hrtoNat : r.toNat < 10 ^ STORABLE_DIGITS_PER_FILE := by
      rw [storable_digits_eq]
      rw [nines_index_eq] at hr
      omega
    by_cases htr : i = 0 ∨ i = NINES_INDEX - 1
    · rw [if_pos htr] at h
      cases hrec : planLoop 2 (r - ((NINES_INDEX - 1 : Nat) : Int)) cs with
      | error e => rw [hrec] at h; simp at h
      | ok rest =>
        rw [hrec] at h
        simp only [Except.ok.injEq] at h
        subst h
        rcases List.mem_cons.mp hs with rfl | hs'
        · exact ⟨prepend_chunk_strok (by rw [digits_for_index_eq]; omega) hrtoNat,
            prepend_chunk_val_lt (by rw [nines_index_eq]; omega) hrtoNat⟩
        · rcases List.mem_cons.mp hs' with rfl | hs''
          · exact ⟨prepend_chunk_strok (by rw [digits_for_index_eq]; omega) hvc,
              prepend_chunk_val_lt (by rw [nines_index_eq]; omega) hvc⟩
          · exact ih 2 _ rest hrec (by rw [nines_index_eq]; omega)
              (by rw [nines_index_eq] at hr ⊢; omega) hwf' s hs''
    · rw [if_neg htr] at h
      push_neg at htr
      cases hrec : planLoop (i + 1) r cs with
      | error e => rw [hrec] at h; simp at h
      | ok rest =>
        rw [hrec] at h
        simp only [Except.ok.injEq] at h
        subst h
        have hi9997 : i ≤ NINES_INDEX - 2 := by
          rw [nines_index_eq] at hi htr ⊢
          omega
        rcases List.mem_cons.mp hs with rfl | hs'
        · exact ⟨prepend_chunk_strok
            (by rw [digits_for_index_eq]; rw [nines_index_eq] at hi9997; omega) hvc,
            prepend_chunk_val_lt hi9997 hvc⟩
        · exact ih (i + 1) r rest hrec
            (by rw [nines_index_eq] at htr hi ⊢; omega) hr hwf' s hs'

theorem planChunks_strings {chunks strs : List (List Nat)}
    (h : planChunks chunks = .ok strs) (hwf : ∀ c ∈ chunks, ChunkOK c) :
    ∀ s ∈ strs, StrOK s ∧ fromBase 10 s < 10 ^ 17 - 1 := by
  unfold planChunks at h
  by_cases hcap : (NINES_INDEX - 1 : Nat) < chunks.length
  · rw [if_pos hcap] at h; simp at h
  · rw [if_neg hcap] at h
    exact planLoop_strings chunks 0 _ strs h (by omega)
      (by rw [nines_index_eq] at hcap ⊢; omega) hwf

theorem planned_lt_sentinel {chunks strs : List (List Nat)}
    (h : planChunks chunks = .ok strs) (hwf : ∀ c ∈ chunks, ChunkOK c) :
    ∀ s ∈ strs, digLT s sentinel := by
  intro s hs
  obtain ⟨hok, hval⟩ := planChunks_strings h hwf s hs
  show lexLT s sentinel = true
  rw [lexLT_iff_val_lt (by rw [hok.1, sentinel_strok.1]) hok.2 sentinel_strok.2,
    sentinel_val]
  exact hval

/-! ## The chunks `hide` derives from a byte stream are well formed -/

theorem stream_chunks_ok {stream : List Nat} (hb : ∀ d ∈ stream, d < 256) :
    ∀ c ∈ chunk_list (padToMultiple stream) STORABLE_BYTES_PER_FILE, ChunkOK c := by
  intro c hc
  have hbytes := padToMultiple_digits hb
  have hdvd : STORABLE_BYTES_PER_FILE ∣ (padToMultiple stream).length :=
    Nat.dvd_of_mod_eq_zero (padToMultiple_mod _)
  exact ⟨chunk_list_mem_length (by rw [storable_bytes_eq]; omega) _ hdvd c hc,
    fun d hd => hbytes d
      (chunk_list_mem_mem (by rw [storable_bytes_eq]; omega) _ c hc d hd)⟩

theorem framed_bytes_lt {payload ext : List Nat} (hp : ∀ d ∈ payload, d < 256)
    (he : ∀ d ∈ ext, d < 256) :
    ∀ d ∈ rsEncode (payload ++ 46 :: ext), d < 256 := by
  apply rsEncode_digits
  intro d hd
  rcases List.mem_append.mp hd with h | h
  · exact hp d h
  · rcases List.mem_cons.mp h with rfl | h
    · omega
    · exact he d h

theorem hide_chunks_ok {payload ext : List Nat} (hp : ∀ d ∈ payload, d < 256)
    (he : ∀ d ∈ ext, d < 256) :
    ∀ c ∈ chunk_list (padToMultiple (rsEncode (payload ++ 46 :: ext)))
        STORABLE_BYTES_PER_FILE, ChunkOK c :=
  stream_chunks_ok (framed_bytes_lt hp he)

theorem numChunks_pos (payload ext : List Nat) : 1 ≤ numChunks payload ext := by
  unfold numChunks
  have hlen : 0 < (padToMultiple (rsEncode (payload ++ 46 :: ext))).length := by
    unfold padToMultiple
    rw [List.length_append, rsEncode_length]
    simp only [ERROR_CORRECTING_BYTES]
    omega
  have hne : padToMultiple (rsEncode (payload ++ 46 :: ext)) ≠ [] := by
    intro h
    rw [h] at hlen
    simp at hlen
  rw [chunk_list_eq (by rw [storable_bytes_eq]; omega), if_neg hne]
  simp

theorem hideFiles_ok {payload ext : List Nat} {pool : List FileTimes}
    (offset : Nat) (hp : ∀ d ∈ payload, d < 256) (he : ∀ d ∈ ext, d < 256)
    (hcap : numChunks payload ext ≤ NINES_INDEX - 2)
    (hpool : numChunks payload ext + 1 ≤ pool.length) :
    hideFiles payload ext pool offset = .ok (writeAt (pool.map resetFile) offset
      (idxRecord (numChunks payload ext) :: dataStrings 1
        (chunk_list (padToMultiple (rsEncode (payload ++ 46 :: ext)))
          STORABLE_BYTES_PER_FILE))) := by
  have hne : chunk_list (padToMultiple (rsEncode (payload ++ 46 :: ext)))
      STORABLE_BYTES_PER_FILE ≠ [] := by
    intro h
    have := numChunks_pos payload ext
    unfold numChunks at this
    rw [h] at this
    simp at this
  have hNchunks : (chunk_list (padToMultiple (rsEncode (payload ++ 46 :: ext)))
      STORABLE_BYTES_PER_FILE).length = numChunks payload ext := rfl
  have hplan := planChunks_small hcap hne (hide_chunks_ok hp he)
  rw [hNchunks] at hplan
  simp only [hideFiles, hplan]
  rw [if_neg (by
    simp only [List.length_cons, dataStrings_length, hNchunks]
    omega)]

/-! ## The full round trip -/

theorem extract_of_planned {payload ext : List Nat} {pool : List FileTimes}
    {offset : Nat} (hp : ∀ d ∈ payload, d < 256) (he : ∀ d ∈ ext, d < 256)
    (hdot : 46 ∉ ext) (hz : ∀ h, payload.head? = some h → h ≠ 0)
    (hcap : numChunks payload ext ≤ NINES_INDEX - 2)
    (hpool : offset + (numChunks payload ext + 1) ≤ pool.length) :
    extractFiles (writeAt (pool.map resetFile) offset
      (idxRecord (numChunks payload ext) :: dataStrings 1
        (chunk_list (padToMultiple (rsEncode (payload ++ 46 :: ext)))
          STORABLE_BYTES_PER_FILE))) = .ok (payload, ext) := by
  have hwfc := hide_chunks_ok hp he
  have hN97 : numChunks payload ext ≤ 9997 := by rw [nines_index_eq] at hcap; omega
  have hNlt : numChunks payload ext < 10 ^ STORABLE_DIGITS_PER_FILE := by
    rw [storable_digits_eq]
    omega
  have hplan := planChunks_small hcap (by
    intro h
    have := numChunks_pos payload ext
    unfold numChunks at this
    rw [h] at this
    simp at this) hwfc
  -- well-formedness of the written strings
  have hidxok : StrOK (idxRecord (numChunks payload ext)) := idxRecord_strok hNlt
  have hNchunks : (chunk_list (padToMultiple (rsEncode (payload ++ 46 :: ext)))
      STORABLE_BYTES_PER_FILE).length = numChunks payload ext := rfl
  have hdata_bound : 1 + (chunk_list (padToMultiple (rsEncode (payload ++ 46 :: ext)))
      STORABLE_BYTES_PER_FILE).length ≤ NINES_INDEX - 1 := by
    rw [hNchunks, nines_index_eq]
    omega
  have hdataok := dataStrings_strok (i := 1) hwfc hdata_bound
  have hwfstr : ∀ s ∈ idxRecord (numChunks payload ext) :: dataStrings 1
      (chunk_list (padToMultiple (rsEncode (payload ++ 46 :: ext)))
        STORABLE_BYTES_PER_FILE), StrOK s := by
    intro s hs
    rcases List.mem_cons.mp hs with rfl | hs'
    · exact hidxok
    · exact hdataok s hs'
  -- what the pool reads back as
  have hreadback := @map_readFile_writeAt pool _ offset hwfstr
    (by simp only [List.length_cons, dataStrings_length, hNchunks]; omega)
  -- the planned block is strictly sorted and below the sentinel
  have hsortedP : List.Sorted digLT (idxRecord (numChunks payload ext) ::
      dataStrings 1 (chunk_list (padToMultiple (rsEncode (payload ++ 46 :: ext)))
        STORABLE_BYTES_PER_FILE)) := by
    rw [List.sorted_cons]
    constructor
    · intro b hb
      have hbok := hdataok b hb
      show lexLT _ b = true
      rw [lexLT_iff_val_lt (by rw [hidxok.1, hbok.1]) hidxok.2 hbok.2,
        idxRecord_val hNlt]
      have hge := dataStrings_val_ge (i := 1) hwfc b hb
      have : numChunks payload ext < 1 * 10 ^ STORABLE_DIGITS_PER_FILE := by
        rw [one_mul]
        exact hNlt
      omega
    · exact dataStrings_sorted (by omega) hdata_bound hwfc
  have hltS : ∀ s ∈ idxRecord (numChunks payload ext) :: dataStrings 1
      (chunk_list (padToMultiple (rsEncode (payload ++ 46 :: ext)))
        STORABLE_BYTES_PER_FILE), digLT s sentinel :=
    planned_lt_sentinel hplan hwfc
  -- sorting recovers the block followed by the sentinels
  have hsort := sortStrings_block hsortedP hltS offset
    (pool.length - offset - (numChunks payload ext + 1))
  -- scanning the sorted strings reassembles the padded stream
  have hscan : extractScan false 0 ((idxRecord (numChunks payload ext) ::
      dataStrings 1 (chunk_list (padToMultiple (rsEncode (payload ++ 46 :: ext)))
        STORABLE_BYTES_PER_FILE)) ++
      List.replicate (offset + (pool.length - offset - (numChunks payload ext + 1)))
        sentinel) = padToMultiple (rsEncode (payload ++ 46 :: ext)) := by
    rw [List.cons_append]
    rw [show extractScan false 0 (idxRecord (numChunks payload ext) ::
        (dataStrings 1 (chunk_list (padToMultiple (rsEncode (payload ++ 46 :: ext)))
          STORABLE_BYTES_PER_FILE) ++
        List.replicate (offset + (pool.length - offset - (numChunks payload ext + 1)))
          sentinel)) =
      extractScan true (fromBase 10 ((idxRecord (numChunks payload ext)).drop
          DIGITS_FOR_INDEX))
        (dataStrings 1 (chunk_list (padToMultiple (rsEncode (payload ++ 46 :: ext)))
          STORABLE_BYTES_PER_FILE) ++
        List.replicate (offset + (pool.length - offset - (numChunks payload ext + 1)))
          sentinel) from by
      simp only [extractScan, idxRecord_index, ne_eq, not_true_eq_false, if_neg,
        not_not, if_pos]
      rw [if_neg (by simp [idxRecord_index])]]
    rw [idxRecord_data hNlt, ← hNchunks]
    rw [extractScan_dataStrings _ 1 _ (by omega) hdata_bound hwfc]
    rw [extractScan_sentinels]
    rw [List.append_nil]
    exact chunk_list_flatten (by rw [storable_bytes_eq]; omega) _
  -- the padded stream trims back to the framed stream
  have htrim : trimLeadingZeros (padToMultiple (rsEncode (payload ++ 46 :: ext))) =
      .ok (rsEncode (payload ++ 46 :: ext)) := by
    obtain ⟨d, rest, hframed, hd⟩ : ∃ d rest,
        rsEncode (payload ++ 46 :: ext) = d :: rest ∧ d ≠ 0 := by
      cases payload with
      | nil => exact ⟨46, ext ++ rsParity ([] ++ 46 :: ext), by
          simp [rsEncode], by omega⟩
      | cons h t =>
        refine ⟨h, t ++ 46 :: ext ++ rsParity ((h :: t) ++ 46 :: ext), ?_, ?_⟩
        · simp [rsEncode]
        · exact hz h rfl
    unfold padToMultiple
    rw [hframed]
    exact trimLeadingZeros_pad hd _
  -- assemble
  unfold extractFiles
  rw [hreadback]
  unfold extractCore
  simp only [List.length_cons, dataStrings_length, hNchunks]
  rw [hsort, hscan]
  simp only [htrim, rsDecode_rsEncode, rsplitDot_append hdot]

theorem hideThenExtract_roundtrip {payload ext : List Nat} {pool : List FileTimes}
    {offset : Nat} (hp : ∀ d ∈ payload, d < 256) (he : ∀ d ∈ ext, d < 256)
    (hdot : 46 ∉ ext) (hz : ∀ h, payload.head? = some h → h ≠ 0)
    (hcap : numChunks payload ext ≤ NINES_INDEX - 2)
    (hpool : offset + (numChunks payload ext + 1) ≤ pool.length) :
    hideThenExtract payload ext pool offset = .ok (payload, ext) := by
  unfold hideThenExtract
  rw [hideFiles_ok offset hp he hcap (by omega)]
  exact extract_of_planned hp he hdot hz hcap hpool

/-! ## Plan size and failure characterization -/

theorem planChunks_capacity {cs : List (List Nat)}
    (h : NINES_INDEX - 1 < cs.length) :
    planChunks cs = .error .capacityExceeded := by
  unfold planChunks
  rw [if_pos h]

theorem plannedFiles_small {n : Nat} (h1 : 1 ≤ n) (h2 : n ≤ NINES_INDEX - 2) :
    plannedFiles n = n + 1 := by
  unfold plannedFiles
  rw [nines_index_eq] at h2 ⊢
  omega

theorem planChunks_length {cs : List (List Nat)} (hwf : ∀ c ∈ cs, ChunkOK c)
    (hcap : cs.length ≤ NINES_INDEX - 1) :
    ∃ strs, planChunks cs = .ok strs ∧ strs.length = plannedFiles cs.length := by
  rcases Nat.lt_or_ge cs.length 1 with h0 | h1
  · have hnil : cs = [] := List.length_eq_zero.mp (by omega)
    subst hnil
    exact ⟨[], planChunks_nil, by decide⟩
  · by_cases hsmall : cs.length ≤ NINES_INDEX - 2
    · have hne : cs ≠ [] := by
        intro h
        rw [h] at h1
        simp at h1
      refine ⟨_, planChunks_small hsmall hne hwf, ?_⟩
      simp only [List.length_cons, dataStrings_length]
      rw [plannedFiles_small h1 hsmall]
    · have hlen : cs.length = NINES_INDEX - 1 := by
        rw [nines_index_eq] at hcap hsmall ⊢
        omega
      obtain ⟨rest, hplan, hrest, _⟩ := planChunks_at_cap hlen hwf
      refine ⟨_, hplan, ?_⟩
      simp only [List.length_cons, hrest, hlen]
      decide

/-! ## The extension split -/

theorem afterLastDot_no_dot : ∀ {l : List Nat}, 46 ∉ l → afterLastDot l = l
  | [], _ => rfl
  | d :: rest, h => by
    have h1 : 46 ∉ rest := fun hr => h (List.mem_cons_of_mem _ hr)
    have h2 : d ≠ 46 := fun he => h (he ▸ List.mem_cons_self _ _)
    simp only [afterLastDot, if_neg h1, if_neg h2]

theorem afterLastDot_result_no_dot : ∀ l : List Nat, 46 ∉ afterLastDot l
  | [] => by simp [afterLastDot]
  | d :: rest => by
    simp only [afterLastDot]
    by_cases h : 46 ∈ rest
    · rw [if_pos h]
      exact afterLastDot_result_no_dot rest
    · rw [if_neg h]
      by_cases hd : d = 46
      · rw [if_pos hd]
        exact h
      · rw [if_neg hd]
        intro hmem
        rcases List.mem_cons.mp hmem with h' | h'
        · exact hd h'.symm
        · exact h h'

theorem afterLastDot_split : ∀ {l : List Nat}, 46 ∈ l →
    ∃ pre, l = pre ++ 46 :: afterLastDot l
  | [], h => absurd h (List.not_mem_nil _)
  | d :: rest, h => by
    simp only [afterLastDot]
    by_cases hr : 46 ∈ rest
    · rw [if_pos hr]
      obtain ⟨pre, hpre⟩ := afterLastDot_split hr
      refine ⟨d :: pre, ?_⟩
      rw [List.cons_append, ← hpre]
    · rw [if_neg hr]
      have hd : d = 46 := by
        rcases List.mem_cons.mp h with h' | h'
        · exact h'.symm
        · exact absurd h' hr
      rw [if_pos hd, hd]
      exact ⟨[], rfl⟩

/-! ## A sorted list of strings is its own sort -/

theorem sortStrings_of_sorted {L : List (List Nat)} (h : List.Sorted digLE L) :
    sortStrings L = L := by
  haveI : IsTrans (List Nat) digLE := ⟨fun a b c => lexLE_trans a b c⟩
  haveI : IsAntisymm (List Nat) digLE := ⟨fun _ _ => lexLE_antisymm⟩
  haveI : IsTotal (List Nat) digLE := ⟨lexLE_total⟩
  exact List.eq_of_perm_of_sorted (List.perm_insertionSort digLE L)
    (List.sorted_insertionSort digLE L) h

/-! ## Chunking an all-zero stream -/

theorem chunk_list_replicate_zero {n : Nat} (hn : 1 ≤ n) :
    ∀ m, chunk_list (List.replicate (n * m) 0) n =
      List.replicate m (List.replicate n 0) := by
  intro m
  induction m with
  | zero => simp [chunk_list, chunkAux]
  | succ m ih =>
    have hsplit : List.replicate (n * (m + 1)) (0 : Nat) =
        List.replicate n 0 ++ List.replicate (n * m) 0 := by
      rw [← List.replicate_add]
      congr 1
      ring
    rw [hsplit, chunk_list_eq hn, if_neg (by
      intro habs
      have := congrArg List.length habs
      simp at this
      omega)]
    rw [List.take_left' (by simp), List.drop_left' (by simp), ih,
      List.replicate_succ]

theorem prepend_zeroes_split {s : List Nat} {n m : Nat} (h1 : s.length ≤ m)
    (h2 : m ≤ n) :
    prepend_zeroes s n = List.replicate (n - m) 0 ++ prepend_zeroes s m := by
  unfold prepend_zeroes
  rw [← List.append_assoc, ← List.replicate_add]
  congr 2
  omega

theorem planned_sorted {cs : List (List Nat)} (hwf : ∀ c ∈ cs, ChunkOK c)
    (hcap : cs.length ≤ NINES_INDEX - 2) :
    List.Sorted digLT (idxRecord cs.length :: dataStrings 1 cs) := by
  have hNlt : cs.length < 10 ^ STORABLE_DIGITS_PER_FILE := by
    rw [storable_digits_eq]
    rw [nines_index_eq] at hcap
    omega
  have hidxok := idxRecord_strok hNlt
  have hbound : 1 + cs.length ≤ NINES_INDEX - 1 := by
    rw [nines_index_eq] at hcap ⊢
    omega
  have hdataok := dataStrings_strok (i := 1) hwf hbound
  rw [List.sorted_cons]
  constructor
  · intro b hb
    have hbok := hdataok b hb
    show lexLT _ b = true
    rw [lexLT_iff_val_lt (by rw [hidxok.1, hbok.1]) hidxok.2 hbok.2,
      idxRecord_val hNlt]
    have hge := dataStrings_val_ge (i := 1) hwf b hb
    have : cs.length < 1 * 10 ^ STORABLE_DIGITS_PER_FILE := by
      rw [one_mul]
      exact hNlt
    omega
  · exact dataStrings_sorted (by omega) hbound hwf

theorem hideFiles_insufficient {payload ext : List Nat} {pool : List FileTimes}
    (offset : Nat) (hp : ∀ d ∈ payload, d < 256) (he : ∀ d ∈ ext, d < 256)
    (hcap : numChunks payload ext ≤ NINES_INDEX - 1)
    (hpool : pool.length < plannedFiles (numChunks payload ext)) :
    hideFiles payload ext pool offset = .error .insufficientCarriers := by
  have hNc : (chunk_list (padToMultiple (rsEncode (payload ++ 46 :: ext)))
      STORABLE_BYTES_PER_FILE).length = numChunks payload ext := rfl
  obtain ⟨strs, hplan, hlen⟩ := planChunks_length (hide_chunks_ok hp he)
    (by rw [hNc]; exact hcap)
  rw [hNc] at hlen
  simp only [hideFiles, hplan]
  rw [if_pos (by omega)]

/-- `planOrNil` agrees with a successful `planChunks` run. -/
theorem planOrNil_eq {stream : List Nat} {strs : List (List Nat)}
    (h : planChunks (chunk_list (padToMultiple stream) STORABLE_BYTES_PER_FILE) =
      .ok strs) :
    planOrNil stream = strs := by
  unfold planOrNil
  rw [h]

/-! ## Claims -/

/-- C1 counterexample: the round trip is not the identity for every payload.
For the single-byte payload `0x00` (extension `"bin"`, 12 carriers, offset
0), the leading-zero trim of `extract` also strips the payload's own zero
byte, the shifted stream no longer passes Reed-Solomon decoding, and the
run fails instead of returning the original payload. -/
theorem c1_round_trip_counterexample :
    hideThenExtract [0] [98, 105, 110] (List.replicate 12 ⟨0, 0, 0⟩) 0 =
        .error .reedSolomonError ∧
      hideThenExtract [0] [98, 105, 110] (List.replicate 12 ⟨0, 0, 0⟩) 0 ≠
        .ok ([0], [98, 105, 110]) := by
  constructor
  · decide
  · decide

/-- C1 (amended): for every payload byte sequence that is empty or starts
with a nonzero byte, and every dot-free extension byte string, if the data
chunks fit in a single index window (at most `10^4 - 3 = 9997` chunks) and
the carrier pool is at least as large as the planned digit strings from the
chosen offset on, then `extract` applied to the pool `hide` produced
returns exactly the original payload bytes and extension. -/
theorem c1_round_trip_amended {payload ext : List Nat} {pool : List FileTimes}
    {offset : Nat} (hp : ∀ d ∈ payload, d < 256) (he : ∀ d ∈ ext, d < 256)
    (hdot : 46 ∉ ext) (hz : ∀ h, payload.head? = some h → h ≠ 0)
    (hcap : numChunks payload ext ≤ NINES_INDEX - 2)
    (hpool : offset + (numChunks payload ext + 1) ≤ pool.length) :
    hideThenExtract payload ext pool offset = .ok (payload, ext) :=
  hideThenExtract_roundtrip hp he hdot hz hcap hpool

/-- C1 witness: a concrete full round trip through the amended theorem. -/
theorem c1_round_trip_witness :
    hideThenExtract [1] [98, 105, 110] (List.replicate 12 ⟨0, 0, 0⟩) 0 =
      .ok ([1], [98, 105, 110]) :=
  c1_round_trip_amended (by decide) (by decide) (by decide)
    (by intro h hh; simp at hh; omega) (by decide) (by decide)

/-- C2 counterexample: the derived capacity `STORABLE_BYTES_PER_FILE` is 5,
and 5 does not satisfy the claim's defining property `256^c - 1 ≤ 10^12 - 1`
(`256^5 - 1 = 2^40 - 1` has 13 decimal digits, not at most `D - 1 = 12`),
so the constant is not the claimed largest such byte count (which is 4). -/
theorem c2_capacity_constant_counterexample :
    STORABLE_BYTES_PER_FILE = 5 ∧
      ¬ (256 ^ STORABLE_BYTES_PER_FILE - 1 ≤ 10 ^ 12 - 1) := by
  constructor
  · decide
  · decide

/-- C2 (amended): `STORABLE_BYTES_PER_FILE = int_byte_size 12 = 5`, which
is the largest byte count `c` such that every value in `[0, 256^c - 1]` has
at most `D = 13` decimal digits (not `D - 1 = 12` as claimed): the full
5-byte range tops out at 13 digits, one more than the spec's stated safety
margin. -/
theorem c2_capacity_constant_amended :
    STORABLE_BYTES_PER_FILE = 5 ∧
      ∀ c : Nat, (256 ^ c - 1 ≤ 10 ^ 13 - 1 ↔ c ≤ 5) := by
  refine ⟨by decide, fun c => ⟨?_, ?_⟩⟩
  · intro hc
    by_contra h
    have h6 : (256 : Nat) ^ 6 ≤ 256 ^ c := Nat.pow_le_pow_right (by omega) (by omega)
    have e6 : (256 : Nat) ^ 6 = 281474976710656 := by norm_num
    have e13 : (10 : Nat) ^ 13 = 10000000000000 := by norm_num
    omega
  · intro hc
    have h5 : (256 : Nat) ^ c ≤ 256 ^ 5 := Nat.pow_le_pow_right (by omega) hc
    have e5 : (256 : Nat) ^ 5 = 1099511627776 := by norm_num
    have e13 : (10 : Nat) ^ 13 = 10000000000000 := by norm_num
    omega

/-- C2 witness: the amended characterization applied at `c = 5`. -/
theorem c2_capacity_constant_witness :
    (256 : Nat) ^ 5 - 1 ≤ 10 ^ 13 - 1 ↔ 5 ≤ 5 :=
  c2_capacity_constant_amended.2 5

/-- C3 counterexample: a payload needing exactly `N = 9998` data chunks
(49935 payload bytes, extension `"b"`, so the framed stream pads to 49990
bytes) makes the planning loop emit a second Index Record at the window
boundary, so 10000 digit strings are planned; with `N + ceil(N / 9998) =
9999` carriers — enough according to the claim — `hide` fails with the
`InsufficientCarriers` exception instead of succeeding. -/
theorem c3_capacity_bound_counterexample :
    hideFiles (List.replicate 49935 1) [98] (List.replicate 9999 ⟨0, 0, 0⟩) 0 =
      .error .insufficientCarriers := by
  have hp : ∀ d ∈ List.replicate 49935 (1 : Nat), d < 256 := by
    intro d hd
    have := List.eq_of_mem_replicate hd
    omega
  have he : ∀ d ∈ [(98 : Nat)], d < 256 := by decide
  have hL : (rsEncode (List.replicate 49935 1 ++ 46 :: [98])).length = 49987 := by
    rw [rsEncode_length, List.length_append, List.length_replicate]
    decide
  have hpadlen : (padToMultiple (rsEncode (List.replicate 49935 1 ++
      46 :: [98]))).length = 49990 := by
    unfold padToMultiple
    rw [List.length_append, List.length_replicate, hL, storable_bytes_eq]
  have hN : numChunks (List.replicate 49935 1) [98] = NINES_INDEX - 1 := by
    show (chunk_list (padToMultiple (rsEncode (List.replicate 49935 1 ++
      46 :: [98]))) STORABLE_BYTES_PER_FILE).length = NINES_INDEX - 1
    rw [chunk_list_length (by rw [storable_bytes_eq]; omega) _
      (Nat.dvd_of_mod_eq_zero (padToMultiple_mod _)), hpadlen,
      storable_bytes_eq, nines_index_eq]
  exact hideFiles_insufficient 0 hp he (by omega)
    (by rw [hN, List.length_replicate]; decide)

/-- C3 (amended): `hide` on well-formed payload and extension bytes behaves
as follows at any random offset.  With `N = numChunks payload ext` data
chunks: it raises `CapacityExceeded` exactly when `N > 10^4 - 2 = 9998`
(the single global check); below that cap it raises `InsufficientCarriers`
exactly when the pool is smaller than `plannedFiles N = N + ceil(N / 9997)`
(one Index Record per window of `9997`, not 9998, data chunks — a second
record is emitted already at `N = 9998`); and it succeeds exactly when
`N ≤ 9998` and the pool holds at least `plannedFiles N` carriers. -/
theorem c3_capacity_bound_amended {payload ext : List Nat}
    (pool : List FileTimes) (offset : Nat) (hp : ∀ d ∈ payload, d < 256)
    (he : ∀ d ∈ ext, d < 256) :
    (hideFiles payload ext pool offset = .error .capacityExceeded ↔
      NINES_INDEX - 1 < numChunks payload ext) ∧
    (hideFiles payload ext pool offset = .error .insufficientCarriers ↔
      (numChunks payload ext ≤ NINES_INDEX - 1 ∧
        pool.length < plannedFiles (numChunks payload ext))) ∧
    (exceptOk (hideFiles payload ext pool offset) = true ↔
      (numChunks payload ext ≤ NINES_INDEX - 1 ∧
        plannedFiles (numChunks payload ext) ≤ pool.length)) := by
  have hNc : (chunk_list (padToMultiple (rsEncode (payload ++ 46 :: ext)))
      STORABLE_BYTES_PER_FILE).length = numChunks payload ext := rfl
  by_cases hcap : numChunks payload ext ≤ NINES_INDEX - 1
  · obtain ⟨strs, hplan, hlen⟩ := planChunks_length (hide_chunks_ok hp he)
      (by rw [hNc]; exact hcap)
    rw [hNc] at hlen
    by_cases hpool : pool.length < strs.length
    · have hF : hideFiles payload ext pool offset =
          .error .insufficientCarriers := by
        simp only [hideFiles, hplan]
        rw [if_pos hpool]
      rw [hF]
      exact ⟨⟨fun h => absurd (Except.error.inj h) (by decide),
          fun h => absurd hcap (by omega)⟩,
        ⟨fun _ => ⟨hcap, by omega⟩, fun _ => rfl⟩,
        ⟨fun h => absurd h (by decide), fun h => absurd h.2 (by omega)⟩⟩
    · have hF : hideFiles payload ext pool offset =
          .ok (writeAt (pool.map resetFile) offset strs) := by
        simp only [hideFiles, hplan]
        rw [if_neg hpool]
      rw [hF]
      exact ⟨⟨fun h => Except.noConfusion h, fun h => absurd hcap (by omega)⟩,
        ⟨fun h => Except.noConfusion h, fun h => absurd h.2 (by omega)⟩,
        ⟨fun _ => ⟨hcap, by omega⟩, fun _ => rfl⟩⟩
  · have hplan := planChunks_capacity (by rw [hNc]; omega)
    have hF : hideFiles payload ext pool offset = .error .capacityExceeded := by
      simp only [hideFiles, hplan]
    rw [hF]
    exact ⟨⟨fun _ => by omega, fun _ => rfl⟩,
      ⟨fun h => absurd (Except.error.inj h) (by decide),
        fun h => absurd h.1 hcap⟩,
      ⟨fun h => absurd h (by decide), fun h => absurd h.1 hcap⟩⟩

/-- C3 witness: the amended characterization at a concrete small input
(11 data chunks, 12 carriers): the run succeeds and neither error case
applies. -/
theorem c3_capacity_bound_witness :
    (hideFiles [1] [98, 105, 110] (List.replicate 12 ⟨0, 0, 0⟩) 0 =
        .error .capacityExceeded ↔
      NINES_INDEX - 1 < numChunks [1] [98, 105, 110]) ∧
    (hideFiles [1] [98, 105, 110] (List.replicate 12 ⟨0, 0, 0⟩) 0 =
        .error .insufficientCarriers ↔
      (numChunks [1] [98, 105, 110] ≤ NINES_INDEX - 1 ∧
        (List.replicate 12 (⟨0, 0, 0⟩ : FileTimes)).length <
          plannedFiles (numChunks [1] [98, 105, 110]))) ∧
    (exceptOk (hideFiles [1] [98, 105, 110] (List.replicate 12 ⟨0, 0, 0⟩) 0) = true ↔
      (numChunks [1] [98, 105, 110] ≤ NINES_INDEX - 1 ∧
        plannedFiles (numChunks [1] [98, 105, 110]) ≤
          (List.replicate 12 (⟨0, 0, 0⟩ : FileTimes)).length)) :=
  c3_capacity_bound_amended (List.replicate 12 ⟨0, 0, 0⟩) 0 (by decide) (by decide)

/-- C4 counterexample: an in-capacity framed stream of 49990 zero bytes
needs `N = 9998` data chunks; planning succeeds, but the emitted digit
strings are not strictly increasing: the run starts with the first Index
Record (data field 9998) and a second, all-zero Index Record appears near
the end, which sorts before it. -/
theorem c4_plan_order_counterexample :
    ¬ List.Sorted digLT (planOrNil (List.replicate 49990 0)) ∧
      exceptOk (planChunks (chunk_list (padToMultiple (List.replicate 49990 0))
        STORABLE_BYTES_PER_FILE)) = true := by
  have hpad : padToMultiple (List.replicate 49990 (0 : Nat)) =
      List.replicate 49990 0 := by
    unfold padToMultiple
    rw [storable_bytes_eq, List.length_replicate]
    norm_num
  have hchunks : chunk_list (List.replicate 49990 0) STORABLE_BYTES_PER_FILE =
      List.replicate 9998 (List.replicate 5 0) := by
    rw [storable_bytes_eq]
    have := chunk_list_replicate_zero (n := 5) (by omega) 9998
    rw [show (5 * 9998 : Nat) = 49990 by norm_num] at this
    exact this
  have hwf : ∀ c ∈ List.replicate 9998 (List.replicate 5 (0 : Nat)), ChunkOK c := by
    intro c hc
    have := List.eq_of_mem_replicate hc
    subst this
    exact ⟨by rw [storable_bytes_eq]; rfl, by decide⟩
  obtain ⟨rest, hplan, hrestlen, hmem⟩ := planChunks_at_cap
    (by rw [List.length_replicate, nines_index_eq]) hwf
  have e1 : planChunks (chunk_list (padToMultiple (List.replicate 49990 0))
      STORABLE_BYTES_PER_FILE) = .ok (idxRecord (NINES_INDEX - 1) :: rest) := by
    rw [hpad, hchunks]
    exact hplan
  have hP : planOrNil (List.replicate 49990 0) =
      idxRecord (NINES_INDEX - 1) :: rest := planOrNil_eq e1
  constructor
  · intro hsort
    rw [hP] at hsort
    have hrel := List.rel_of_sorted_cons hsort _ hmem
    exact absurd hrel (by decide)
  · rw [e1]
    rfl

/-- C4 (amended): for every framed byte stream needing at most `9997` data
chunks (one fewer than the global capacity check allows), the planned
digit-string sequence is strictly increasing under string comparison —
the Index Record with index field `0000` first, then data records by
ascending index field — and sorting it lexicographically reproduces it
unchanged; at exactly 9998 chunks the property fails (see the
counterexample). -/
theorem c4_plan_order_amended {stream : List Nat} {strs : List (List Nat)}
    (hb : ∀ d ∈ stream, d < 256)
    (hcap : (chunk_list (padToMultiple stream) STORABLE_BYTES_PER_FILE).length ≤
      NINES_INDEX - 2)
    (hplan : planChunks (chunk_list (padToMultiple stream)
      STORABLE_BYTES_PER_FILE) = .ok strs) :
    List.Sorted digLT strs ∧ sortStrings strs = strs := by
  have hwf := stream_chunks_ok hb
  by_cases hne : chunk_list (padToMultiple stream) STORABLE_BYTES_PER_FILE = []
  · rw [hne, planChunks_nil] at hplan
    simp only [Except.ok.injEq] at hplan
    subst hplan
    exact ⟨List.sorted_nil, rfl⟩
  · rw [planChunks_small hcap hne hwf] at hplan
    simp only [Except.ok.injEq] at hplan
    subst hplan
    have hsorted := planned_sorted hwf hcap
    exact ⟨hsorted, sortStrings_of_sorted
      (List.Pairwise.imp (fun h => lexLE_of_lexLT h) hsorted)⟩

/-- C4 witness: the amended theorem at a concrete one-chunk stream. -/
theorem c4_plan_order_witness :
    List.Sorted digLT (planOrNil [1, 2, 3, 4, 5]) ∧
      sortStrings (planOrNil [1, 2, 3, 4, 5]) = planOrNil [1, 2, 3, 4, 5] :=
  @c4_plan_order_amended [1, 2, 3, 4, 5] (planOrNil [1, 2, 3, 4, 5])
    (by decide) (by decide) rfl

/-- C5 counterexample: on a pool of three reset (sentinel) carriers — no
Index Record anywhere — `extract` fails with a bare Python `IndexError`
raised by `bytes(encoded_data)[0]` on the empty buffer, not with a
dedicated `NoPayloadFound` error carrying context about the violated
constraint (no such error exists in the program). -/
theorem c5_no_index_record_counterexample :
    extractFiles (List.replicate 3 (resetFile ⟨0, 0, 0⟩)) =
      .error .indexError := by decide

/-- C5 (amended): whenever every carrier in the scanned pool reads back
with a nonzero index field (no Index Record), `extract` fails — but with
an uncaught `IndexError` from the leading-zero trim on the empty
reassembly buffer, not with a named `NoPayloadFound` error. -/
theorem c5_no_index_record_amended {pool : List FileTimes}
    (h : ∀ f ∈ pool, fromBase 10 ((readFile f).take DIGITS_FOR_INDEX) ≠ 0) :
    extractFiles pool = .error .indexError := by
  have hscan : extractScan false 0 (sortStrings (pool.map readFile)) = [] := by
    apply extractScan_no_record
    intro s hs
    have hs' : s ∈ pool.map readFile := List.mem_insertionSort digLE |>.mp hs
    obtain ⟨f, hf, rfl⟩ := List.mem_map.mp hs'
    exact h f hf
  unfold extractFiles extractCore
  rw [hscan]
  rfl

/-- C5 witness: the amended theorem on a single reset carrier. -/
theorem c5_no_index_record_witness :
    extractFiles [resetFile ⟨1, 2, 3⟩] = .error .indexError :=
  c5_no_index_record_amended (by decide)

/-- C6 counterexample: for the one-byte sequence `[0x01]` (length `1 ≤ C`),
the digit-codec round trip returns the value zero-padded to `C = 5` bytes,
not the original one-byte sequence. -/
theorem c6_digit_codec_counterexample :
    decimal_to_bytes (bytes_to_decimal [1] STORABLE_DIGITS_PER_FILE)
      STORABLE_BYTES_PER_FILE ≠ [1] := by decide

/-- C6 (amended): for every byte sequence `b` of length at most `C`,
`decimal_to_bytes (bytes_to_decimal b D) C` returns `b` left-zero-padded
to exactly `C` bytes; this equals `b` itself precisely when `b` already
has length `C` (or consists of its own padding). -/
theorem c6_digit_codec_amended {b : List Nat}
    (hlen : b.length ≤ STORABLE_BYTES_PER_FILE) (hb : ∀ d ∈ b, d < 256) :
    decimal_to_bytes (bytes_to_decimal b STORABLE_DIGITS_PER_FILE)
        STORABLE_BYTES_PER_FILE =
      List.replicate (STORABLE_BYTES_PER_FILE - b.length) 0 ++ b := by
  unfold decimal_to_bytes bytes_to_decimal int_to_bytes int_from_bytes
  rw [fromBase_prepend_zeroes, fromBase_natDigits]
  have hT : (toBaseBE 256 (fromBase 256 b)).length ≤ b.length :=
    toBaseBE_length_le (by omega) _ _ (fromBase_lt (by omega) b hb)
  rw [prepend_zeroes_split hT hlen,
    prepend_zeroes_toBaseBE_fromBase (by omega) hb]

/-- C6 witness: the amended round trip at a full-width 5-byte input, where
it is the identity. -/
theorem c6_digit_codec_witness :
    decimal_to_bytes (bytes_to_decimal [7, 0, 255, 3, 9] STORABLE_DIGITS_PER_FILE)
        STORABLE_BYTES_PER_FILE =
      List.replicate (STORABLE_BYTES_PER_FILE - [7, 0, 255, 3, 9].length) 0 ++
        [7, 0, 255, 3, 9] :=
  c6_digit_codec_amended (by decide) (by decide)

/-- C7: every data chunk of exactly `STORABLE_BYTES_PER_FILE = 5` bytes has
a decimal rendering of at most `STORABLE_DIGITS_PER_FILE = 13` digits
(`2^40 - 1 < 10^13`), so the `Data too long` (`ChunkTooLarge`) branch of
the planning loop is unreachable for legitimately-sized chunks. -/
theorem c7_chunk_digits_bound (c : List Nat)
    (h1 : c.length = STORABLE_BYTES_PER_FILE) (h2 : ∀ d ∈ c, d < 256) :
    ¬ STORABLE_DIGITS_PER_FILE < (natDigits (int_from_bytes c)).length := by
  have := natDigits_chunk_le ⟨h1, h2⟩
  omega

/-- C7 witness: the largest possible chunk, five `0xFF` bytes. -/
theorem c7_chunk_digits_bound_witness :
    ¬ STORABLE_DIGITS_PER_FILE <
      (natDigits (int_from_bytes [255, 255, 255, 255, 255])).length :=
  c7_chunk_digits_bound [255, 255, 255, 255, 255] (by decide) (by decide)

/-- C8: writing any 17-digit decimal string to a carrier (3 digits into the
creation-time milliseconds, 7 into the access-time hundred-nanosecond
units, 7 into the modification-time hundred-nanosecond units) and reading
the carrier back reconstructs exactly the same string, for every starting
timestamp state of the carrier. -/
theorem c8_write_read_inverse (f : FileTimes) (s : List Nat)
    (h1 : s.length = 17) (h2 : ∀ d ∈ s, d < 10) :
    readFile (writeFile f s) = s :=
  readFile_writeFile f ⟨h1, h2⟩

/-- C8 witness: a concrete digit string through a carrier with arbitrary
prior timestamps. -/
theorem c8_write_read_inverse_witness :
    readFile (writeFile ⟨123456, 987654321987, 11⟩
      [0, 1, 2, 3, 4, 5, 6, 7, 8, 9, 0, 1, 2, 3, 4, 5, 6]) =
      [0, 1, 2, 3, 4, 5, 6, 7, 8, 9, 0, 1, 2, 3, 4, 5, 6] :=
  c8_write_read_inverse ⟨123456, 987654321987, 11⟩
    [0, 1, 2, 3, 4, 5, 6, 7, 8, 9, 0, 1, 2, 3, 4, 5, 6] (by decide) (by decide)

/-- C9: a carrier reset by the baseline pass and never written reads back
as the all-nines string; every digit string the planner emits is strictly
below it in string order (index field at most 9997); and during the scan a
run of sentinel strings contributes no bytes (skipped before the Index
Record, `break` after the data block). -/
theorem c9_sentinel_invariant (f : FileTimes) (chunks strs : List (List Nat))
    (h : planChunks chunks = .ok strs) (hwf : ∀ c ∈ chunks, ChunkOK c)
    (s : List Nat) (hs : s ∈ strs) (k : Nat) (found : Bool) :
    readFile (resetFile f) = sentinel ∧ digLT s sentinel ∧
      extractScan found 0 (List.replicate k sentinel) = [] :=
  ⟨readFile_resetFile f, planned_lt_sentinel h hwf s hs,
    extractScan_sentinels found k⟩

/-- C9 witness: a reset carrier, the Index Record of a one-chunk plan, and
two sentinels after the payload block. -/
theorem c9_sentinel_invariant_witness :
    readFile (resetFile ⟨0, 0, 0⟩) = sentinel ∧
      digLT [0, 0, 0, 0, 0, 0, 0, 0, 0, 0, 0, 0, 0, 0, 0, 0, 1] sentinel ∧
      extractScan true 0 (List.replicate 2 sentinel) = [] :=
  c9_sentinel_invariant ⟨0, 0, 0⟩ [[0, 0, 0, 0, 1]]
    [[0, 0, 0, 0, 0, 0, 0, 0, 0, 0, 0, 0, 0, 0, 0, 0, 1],
     [0, 0, 0, 1, 0, 0, 0, 0, 0, 0, 0, 0, 0, 0, 0, 0, 1]]
    (by decide)
    (by
      intro c hc
      rw [List.mem_singleton] at hc
      subst hc
      exact ⟨by decide, by decide⟩)
    [0, 0, 0, 0, 0, 0, 0, 0, 0, 0, 0, 0, 0, 0, 0, 0, 1] (by decide) 2 true

/-- C10: the extension `hide` embeds is `input_path.split('.')[-1]`: in
general the suffix after the last `'.'` of the full path (first conjunct);
and for a path containing no `'.'` at all, the entire path string —
directory separators included — so a successful round trip recovers the
whole path as the output filename suffix (remaining conjuncts). -/
theorem c10_extension_from_path {path payload : List Nat}
    {pool : List FileTimes} {offset : Nat} (hpath : ∀ d ∈ path, d < 256)
    (hp : ∀ d ∈ payload, d < 256) (hz : ∀ h, payload.head? = some h → h ≠ 0)
    (hnodot : 46 ∉ path) (hcap : numChunks payload path ≤ NINES_INDEX - 2)
    (hpool : offset + (numChunks payload path + 1) ≤ pool.length) :
    (∀ q : List Nat, 46 ∈ q →
      ∃ pre, q = pre ++ 46 :: afterLastDot q ∧ 46 ∉ afterLastDot q) ∧
    afterLastDot path = path ∧
    hideThenExtract payload (afterLastDot path) pool offset =
      .ok (payload, path) := by
  refine ⟨fun q hq => ?_, afterLastDot_no_dot hnodot, ?_⟩
  · obtain ⟨pre, hpre⟩ := afterLastDot_split hq
    exact ⟨pre, hpre, afterLastDot_result_no_dot q⟩
  · rw [afterLastDot_no_dot hnodot]
    exact hideThenExtract_roundtrip hp hpath hnodot hz hcap hpool

/-- C10 witness: hiding with the dot-free input path `"a/b"` embeds the
whole path and the round trip recovers it as the extension. -/
theorem c10_extension_from_path_witness :
    hideThenExtract [1] (afterLastDot [97, 47, 98])
        (List.replicate 12 ⟨0, 0, 0⟩) 0 =
      .ok ([1], [97, 47, 98]) :=
  (c10_extension_from_path (by decide) (by decide)
    (by intro h hh; simp at hh; omega) (by decide) (by decide) (by decide)).2.2

end TimestampChannel
